import Mathlib

/-!
# Verification of the VirusGenealogy graph store (src/virus_genealogy.h)

A shallow embedding of the C++ template class `VirusGenealogy<Virus>`.

Modelling choices, all taken from the source:
* `Virus::id_type` is embedded as `Nat` (an externally supplied, totally
  ordered identifier).  A `Virus` payload is constructible from its id and
  `get_id` returns it, so a payload value is observationally its identifier;
  iterator dereferencing therefore yields identifiers.
* `std::set<id>` is embedded as a strictly ascending `List Nat` (`insSet`,
  `eraseSet` mirror `set::insert` / `set::erase`); iteration order of a
  `std::set` is ascending, which the list order realises.
* `std::map<id, Node>` is embedded as an ascending association list
  `List (Nat × Node)` (`ginsert`, `gerase`, `gmodify`, `gfind` mirror
  `map::insert` (which keeps an existing entry), `map::erase`, in-place
  mutation through an iterator, and `map::find`).
* exceptions are embedded as `Except VirusErr` / explicit result states; the
  possibility that a user-supplied comparison or payload constructor throws
  part-way through an operation is embedded by instrumented variants of the
  operations (`create_oneT`, `create_manyT`, `connectT`, `removeT`) that take
  an explicit throw-point oracle and return the state observable after the
  C++ catch/rollback logic has run.
* the recursion of `remove_helper` is embedded with an explicit fuel
  parameter (the C++ recursion has no structural measure on arbitrary
  graphs); `remove` supplies a generous fuel.  All theorems about removal
  hold for every fuel value.
-/

/-- Node of the genealogy graph: child id set, parent id set, and the
`virus` field (the node's own identifier, used for set construction). -/
structure Node where
  children : List Nat
  parents : List Nat
  virus : Nat
deriving DecidableEq, Repr

/-- The graph: an ordered map from identifier to `Node`. -/
abbrev Graph := List (Nat × Node)

/-- Insertion into a `std::set` embedded as an ascending list. -/
def insSet (x : Nat) : List Nat → List Nat
  | [] => [x]
  | y :: ys =>
    if x < y then x :: y :: ys
    else if x = y then y :: ys
    else y :: insSet x ys

/-- Erasure from a `std::set` embedded as a list (removes the one
occurrence, if present). -/
def eraseSet (x : Nat) : List Nat → List Nat
  | [] => []
  | y :: ys => if x = y then ys else y :: eraseSet x ys

/-- Lookup in the ordered map (`std::map::find`). -/
def gfind (g : Graph) (k : Nat) : Option Node :=
  match g with
  | [] => none
  | (k₁, n) :: rest => if k = k₁ then some n else gfind rest k

/-- Key membership (`std::map::contains`). -/
def containsKey (g : Graph) (k : Nat) : Bool :=
  (gfind g k).isSome

/-- Insertion into the ordered map; `std::map::insert` keeps an existing
entry with the same key. -/
def ginsert (k : Nat) (n : Node) : Graph → Graph
  | [] => [(k, n)]
  | (k₁, n₁) :: rest =>
    if k < k₁ then (k, n) :: (k₁, n₁) :: rest
    else if k = k₁ then (k₁, n₁) :: rest
    else (k₁, n₁) :: ginsert k n rest

/-- Erasure by key (`std::map::erase`). -/
def gerase (k : Nat) : Graph → Graph
  | [] => []
  | (k₁, n₁) :: rest => if k = k₁ then rest else (k₁, n₁) :: gerase k rest

/-- In-place modification of the node stored at a key (mutation through a
`std::map` iterator); the graph is unchanged when the key is absent. -/
def gmodify (k : Nat) (f : Node → Node) : Graph → Graph
  | [] => []
  | (k₁, n₁) :: rest =>
    if k = k₁ then (k₁, f n₁) :: rest else (k₁, n₁) :: gmodify k f rest

/-- Keys of the graph. -/
def keys (g : Graph) : List Nat := g.map Prod.fst

/-- Error kinds of the class, plus `userException` for an exception thrown
by a user-supplied payload operation and rethrown after rollback, and
`outOfRange` for a failed `map::at` inside `remove_helper` (and for fuel
exhaustion of the embedded recursion). -/
inductive VirusErr where
  | virusNotFound
  | virusAlreadyCreated
  | triedToRemoveStemVirus
  | userException
  | outOfRange
deriving DecidableEq, Repr

/-- The whole structure: the graph plus the fixed stem identifier.  The
`virus_set` materialization cache is not modelled: payload values are their
identifiers, so the cache has no observable effect on any claim. -/
structure VG where
  graph : Graph
  stem_id : Nat
deriving DecidableEq, Repr

namespace VG

/-- Constructor: a graph holding only the stem node. -/
def construct (stem : Nat) : VG :=
  ⟨[(stem, ⟨[], [], stem⟩)], stem⟩

/-- Membership test, mirroring `exists`. -/
def existsV (v : VG) (id : Nat) : Bool :=
  containsKey v.graph id

/-- Mirror of `get_stem_id`. -/
def get_stem_id (v : VG) : Nat := v.stem_id

/-- Mirror of `get_parents`: ascending snapshot of the parent set. -/
def get_parents (v : VG) (id : Nat) : Except VirusErr (List Nat) :=
  match gfind v.graph id with
  | none => .error .virusNotFound
  | some n => .ok n.parents

/-- Mirror of `operator[]`: the payload value for `id` is the `virus` field
of its node (a `Virus` constructed from that identifier). -/
def lookup (v : VG) (id : Nat) : Except VirusErr Nat :=
  match gfind v.graph id with
  | none => .error .virusNotFound
  | some n => .ok n.virus

/-- Mirror of `get_children_begin`: the traversal view that iterating from
the begin iterator to the end iterator produces, namely the ascending list
of child identifiers (each dereference materializes the payload for that
identifier). -/
def get_children_begin (v : VG) (id : Nat) : Except VirusErr (List Nat) :=
  match gfind v.graph id with
  | none => .error .virusNotFound
  | some n => .ok n.children

/-- Mirror of `get_children_end`: fails on an absent id exactly like
`get_children_begin`. -/
def get_children_end (v : VG) (id : Nat) : Except VirusErr Unit :=
  match gfind v.graph id with
  | none => .error .virusNotFound
  | some _ => .ok ()

/-- Mirror of the single-parent `create` overload. -/
def create_one (v : VG) (id parent_id : Nat) : Except VirusErr VG :=
  if existsV v id then .error .virusAlreadyCreated
  else if !existsV v parent_id then .error .virusNotFound
  else
    match gfind v.graph parent_id with
    | none => .error .outOfRange
    | some pn =>
      match gfind (ginsert id ⟨[], insSet pn.virus [], id⟩ v.graph) parent_id with
      | none => .error .outOfRange
      | some pn1 =>
        .ok ⟨gmodify parent_id
              (fun n => { n with children := insSet id pn1.children })
              (ginsert id ⟨[], insSet pn.virus [], id⟩ v.graph),
             v.stem_id⟩

/-- Mirror of `create_virus_set`: collects the `virus` fields of the nodes
at the given ids into a set; `none` if some id is absent (the C++ caller
validates all ids first). -/
def create_virus_set (g : Graph) : List Nat → Option (List Nat)
  | [] => some []
  | p :: ps =>
    match gfind g p with
    | none => none
    | some n =>
      match create_virus_set g ps with
      | none => none
      | some rest => some (insSet n.virus rest)

/-- The try-block loop of the multi-parent `create`: for each parent, find
its node in the post-insert graph, copy its child set and insert the new
node's `virus`; collects the update list.  `none` models a throw. -/
def prepSwaps (g1 : Graph) (newVirus : Nat) : List Nat → Option (List (Nat × List Nat))
  | [] => some []
  | p :: ps =>
    match gfind g1 p with
    | none => none
    | some n =>
      match prepSwaps g1 newVirus ps with
      | none => none
      | some rest => some ((p, insSet newVirus n.children) :: rest)

/-- The nothrow swap loop of the multi-parent `create`: the recorded child
sets are swapped in back-to-front. -/
def applySwaps (g : Graph) : List (Nat × List Nat) → Graph
  | [] => g
  | (p, cs) :: rest =>
    gmodify p (fun n => { n with children := cs }) (applySwaps g rest)

/-- Mirror of the multi-parent `create` overload. -/
def create_many (v : VG) (id : Nat) (parent_ids : List Nat) : Except VirusErr VG :=
  if existsV v id then .error .virusAlreadyCreated
  else if parent_ids.any (fun p => !existsV v p) then .error .virusNotFound
  else if parent_ids.length = 0 then .ok v
  else
    match create_virus_set v.graph parent_ids with
    | none => .error .outOfRange
    | some parents =>
      match prepSwaps (ginsert id ⟨[], parents, id⟩ v.graph) id parent_ids with
      | none => .error .outOfRange
      | some swaps =>
        .ok ⟨applySwaps (ginsert id ⟨[], parents, id⟩ v.graph) swaps, v.stem_id⟩

/-- Mirror of `connect`. -/
def connect (v : VG) (child_id parent_id : Nat) : Except VirusErr VG :=
  if !existsV v child_id || !existsV v parent_id then .error .virusNotFound
  else
    match gfind v.graph child_id, gfind v.graph parent_id with
    | some cn, some pn =>
      if parent_id ∈ cn.parents then .ok v
      else
        .ok ⟨gmodify parent_id
               (fun n => { n with children := insSet cn.virus n.children })
               (gmodify child_id
                 (fun n => { n with parents := insSet pn.virus n.parents })
                 v.graph),
             v.stem_id⟩
    | _, _ => .error .outOfRange

/-- The first loop of `remove_helper`: erase the target's `virus` from the
child set of each of its parents (`copied_graph.at(*it)` throws when the
parent is missing from the copy). -/
def eraseFromChildren (vir : Nat) (ps : List Nat) (cg : Graph) : Option Graph :=
  match ps with
  | [] => some cg
  | p :: rest =>
    if containsKey cg p then
      eraseFromChildren vir rest
        (gmodify p (fun n => { n with children := eraseSet vir n.children }) cg)
    else none

/-- The second loop of `remove_helper`, abstracted over the recursive
removal `rh`: every child whose parent set has size one is removed by `rh`,
otherwise the target's `virus` is erased from the child's parent set;
`none` models a thrown `std::out_of_range` from `map::at`. -/
def childLoopF (rh : Graph → Nat → Option Graph) (vir : Nat) :
    Graph → List Nat → Option Graph
  | cg, [] => some cg
  | cg, c :: cs =>
    match gfind cg c with
    | none => none
    | some cn =>
      if cn.parents.length = 1 then
        match rh cg c with
        | none => none
        | some cg1 => childLoopF rh vir cg1 cs
      else
        childLoopF rh vir
          (gmodify c (fun n => { n with parents := eraseSet vir n.parents }) cg) cs

/-- Mirror of `remove_helper`.  `live` is the member `graph` (read for the
`virus` field), `cg` the working copy.  `none` models a thrown
`std::out_of_range` from `map::at`, or fuel exhaustion of the embedding. -/
def removeHelper (live : Graph) : Nat → Graph → Nat → Option Graph
  | 0, _, _ => none
  | fuel + 1, cg, id =>
    match gfind cg id, gfind live id with
    | some node, some liveNode =>
      match eraseFromChildren liveNode.virus node.parents cg with
      | none => none
      | some cg1 =>
        match childLoopF (removeHelper live fuel) liveNode.virus cg1 node.children with
        | none => none
        | some cg2 => some (gerase id cg2)
    | _, _ => none

/-- Generous fuel for the embedded `remove_helper` recursion. -/
def removeFuel (g : Graph) : Nat :=
  (g.map (fun e => 1 + e.2.children.length + e.2.parents.length)).sum + 1

/-- Mirror of `remove`: validation, then the whole cascade is computed on a
copy of the graph and swapped in. -/
def remove (v : VG) (id : Nat) : Except VirusErr VG :=
  if !existsV v id then .error .virusNotFound
  else if id = v.stem_id then .error .triedToRemoveStemVirus
  else
    match removeHelper v.graph (removeFuel v.graph) v.graph id with
    | none => .error .outOfRange
    | some g1 => .ok ⟨g1, v.stem_id⟩

end VG

namespace VG

/-! ## Instrumented operations

Each mutating operation also has an instrumented variant taking an explicit
throw-point oracle for the user-supplied payload operations (id comparison,
payload construction) that the C++ code executes between its first mutation
and its final nothrow swaps.  The variant returns the state observable after
the call together with `none` (normal return) or the raised error, so that
the strong exception-safety contract is a statement about it. -/

/-- Instrumented single-parent `create`: `boom` makes the body of the try
block (parent lookup, child-set copy, insertion of the new virus into the
copy) throw; the catch handler erases the inserted node and rethrows. -/
def create_oneT (boom : Bool) (v : VG) (id parent_id : Nat) : VG × Option VirusErr :=
  if existsV v id then (v, some .virusAlreadyCreated)
  else if !existsV v parent_id then (v, some .virusNotFound)
  else
    match gfind v.graph parent_id with
    | none => (v, some .outOfRange)
    | some pn =>
      if boom then
        (⟨gerase id (ginsert id ⟨[], insSet pn.virus [], id⟩ v.graph), v.stem_id⟩,
         some .userException)
      else
        match gfind (ginsert id ⟨[], insSet pn.virus [], id⟩ v.graph) parent_id with
        | none =>
          (⟨gerase id (ginsert id ⟨[], insSet pn.virus [], id⟩ v.graph), v.stem_id⟩,
           some .outOfRange)
        | some pn1 =>
          (⟨gmodify parent_id
              (fun n => { n with children := insSet id pn1.children })
              (ginsert id ⟨[], insSet pn.virus [], id⟩ v.graph),
            v.stem_id⟩, none)

/-- Instrumented try-block loop of the multi-parent `create`: with
`boom = some k` the k-th iteration throws (when it happens). -/
def prepSwapsT (g1 : Graph) (newVirus : Nat) : Option Nat → List Nat → Option (List (Nat × List Nat))
  | _, [] => some []
  | boom, p :: ps =>
    if boom = some 0 then none
    else
      match gfind g1 p with
      | none => none
      | some n =>
        match prepSwapsT g1 newVirus (boom.map (· - 1)) ps with
        | none => none
        | some rest => some ((p, insSet newVirus n.children) :: rest)

/-- Instrumented multi-parent `create`. -/
def create_manyT (boom : Option Nat) (v : VG) (id : Nat) (parent_ids : List Nat) :
    VG × Option VirusErr :=
  if existsV v id then (v, some .virusAlreadyCreated)
  else if parent_ids.any (fun p => !existsV v p) then (v, some .virusNotFound)
  else if parent_ids.length = 0 then (v, none)
  else
    match create_virus_set v.graph parent_ids with
    | none => (v, some .outOfRange)
    | some parents =>
      match prepSwapsT (ginsert id ⟨[], parents, id⟩ v.graph) id boom parent_ids with
      | none =>
        (⟨gerase id (ginsert id ⟨[], parents, id⟩ v.graph), v.stem_id⟩,
         some .userException)
      | some swaps =>
        (⟨applySwaps (ginsert id ⟨[], parents, id⟩ v.graph) swaps, v.stem_id⟩, none)

/-- Instrumented `connect`: a throw while the two extended copies are being
built happens before any mutation, since the two swaps that install them
are nothrow. -/
def connectT (boom : Bool) (v : VG) (child_id parent_id : Nat) : VG × Option VirusErr :=
  if !existsV v child_id || !existsV v parent_id then (v, some .virusNotFound)
  else
    match gfind v.graph child_id, gfind v.graph parent_id with
    | some cn, some pn =>
      if parent_id ∈ cn.parents then (v, none)
      else if boom then (v, some .userException)
      else
        (⟨gmodify parent_id
            (fun n => { n with children := insSet cn.virus n.children })
            (gmodify child_id
              (fun n => { n with parents := insSet pn.virus n.parents })
              v.graph),
          v.stem_id⟩, none)
    | _, _ => (v, some .outOfRange)

/-- Instrumented `remove`: a throw while the graph copy is built or while
`remove_helper` runs discards the copy and leaves the member graph alone. -/
def removeT (boom : Bool) (v : VG) (id : Nat) : VG × Option VirusErr :=
  if !existsV v id then (v, some .virusNotFound)
  else if id = v.stem_id then (v, some .triedToRemoveStemVirus)
  else if boom then (v, some .userException)
  else
    match removeHelper v.graph (removeFuel v.graph) v.graph id with
    | none => (v, some .outOfRange)
    | some g1 => (⟨g1, v.stem_id⟩, none)

end VG

/-! ## Well-formedness predicates (decidable, entry-quantified) -/

/-- Key uniqueness, guaranteed by `std::map`. -/
def keysNodup (g : Graph) : Prop := (keys g).Nodup

/-- Each node's `virus` field is its own key. -/
def virusEq (g : Graph) : Prop := ∀ e ∈ g, (Prod.snd e).virus = Prod.fst e

/-- Child and parent sets are strictly ascending (as `std::set` iteration). -/
def sortedSets (g : Graph) : Prop :=
  ∀ e ∈ g, List.Sorted (· < ·) (Prod.snd e).children ∧
    List.Sorted (· < ·) (Prod.snd e).parents

/-- Every referenced id is a key of the graph. -/
def closedRefs (g : Graph) : Prop :=
  ∀ e ∈ g, (∀ c ∈ (Prod.snd e).children, c ∈ keys g) ∧
    (∀ p ∈ (Prod.snd e).parents, p ∈ keys g)

/-- Parent/child symmetry: P lists C as a child iff C lists P as a parent. -/
def symmRefs (g : Graph) : Prop :=
  ∀ e₁ ∈ g, ∀ e₂ ∈ g,
    (Prod.fst e₂ ∈ (Prod.snd e₁).children ↔ Prod.fst e₁ ∈ (Prod.snd e₂).parents)

/-- Predicate: no node of the graph lists the stem among its children. -/
def stemNotChild (stem : Nat) (g : Graph) : Prop :=
  ∀ e ∈ g, stem ∉ (Prod.snd e).children

/-- The structural invariants named by the specification: the stem exists
with an empty parent set (and hence was never removed), every non-stem node
has at least one parent, and parent/child references are symmetric. -/
def specInvariants (stem : Nat) (v : VG) : Prop :=
  (∃ sn, gfind v.graph stem = some sn ∧ sn.parents = []) ∧
  (∀ e ∈ v.graph, Prod.fst e ≠ stem → (Prod.snd e).parents ≠ []) ∧
  symmRefs v.graph

/-- One abstract operation of the public mutating API. -/
inductive Op where
  | createOne (id parent_id : Nat)
  | createMany (id : Nat) (parent_ids : List Nat)
  | connectOp (child_id parent_id : Nat)
  | removeOp (id : Nat)
deriving DecidableEq, Repr

/-- Discriminator: the operation is not a `connect` whose child is the stem. -/
def notConnectStem (stem : Nat) : Op → Bool
  | .connectOp c _ => c != stem
  | _ => true

namespace VG

/-- Application of one abstract mutating operation. -/
def applyOp (v : VG) : Op → Except VirusErr VG
  | .createOne id p => create_one v id p
  | .createMany id ps => create_many v id ps
  | .connectOp c p => connect v c p
  | .removeOp id => remove v id

/-- States reachable from construction by sequences of successful
operations in which `connect` is never invoked with the stem as the child
(the restriction of the amended claim C2). -/
inductive ReachableNS : Nat → VG → Prop where
  | init (stem : Nat) : ReachableNS stem (construct stem)
  | step {stem : Nat} {v v₁ : VG} (op : Op) (hr : ReachableNS stem v)
      (hok : applyOp v op = .ok v₁)
      (hns : notConnectStem stem op = true) : ReachableNS stem v₁

end VG

/-- The full inductive invariant bundle maintained by every successful
operation under the no-connect-to-stem restriction. -/
def goodState (stem : Nat) (v : VG) : Prop :=
  v.stem_id = stem ∧ keysNodup v.graph ∧ virusEq v.graph ∧
  sortedSets v.graph ∧ closedRefs v.graph ∧ symmRefs v.graph ∧
  stemNotChild stem v.graph ∧
  (∃ sn, gfind v.graph stem = some sn ∧ sn.parents = []) ∧
  (∀ e ∈ v.graph, Prod.fst e ≠ stem → (Prod.snd e).parents ≠ [])

/-! ### Predicates for the `remove_helper` induction -/

/-- Parent/child symmetry restricted to pairs of nodes outside the pending
set `J` (the stack of nodes whose removal is in progress). -/
def symmExc (g : Graph) (J : List Nat) : Prop :=
  ∀ e₁ ∈ g, ∀ e₂ ∈ g, Prod.fst e₁ ∉ J → Prod.fst e₂ ∉ J →
    (Prod.fst e₂ ∈ (Prod.snd e₁).children ↔ Prod.fst e₁ ∈ (Prod.snd e₂).parents)

/-- Reference closedness restricted to nodes outside the pending set. -/
def closedExc (g : Graph) (J : List Nat) : Prop :=
  ∀ e ∈ g, Prod.fst e ∉ J →
    (∀ c ∈ (Prod.snd e).children, c ∈ keys g) ∧
    (∀ p ∈ (Prod.snd e).parents, p ∈ keys g)

/-- Every pending node has been detached from the child set of every
non-pending node. -/
def detachedExc (g : Graph) (J : List Nat) : Prop :=
  ∀ e ∈ g, Prod.fst e ∉ J → ∀ x ∈ J, x ∉ (Prod.snd e).children

/-- Nodup child and parent lists. -/
def nodupSets (g : Graph) : Prop :=
  ∀ e ∈ g, (Prod.snd e).children.Nodup ∧ (Prod.snd e).parents.Nodup

/-- The state invariant of the `remove_helper` induction, indexed by the
pending set `J`. -/
def removeInv (g : Graph) (J : List Nat) : Prop :=
  keysNodup g ∧ nodupSets g ∧ symmExc g J ∧ closedExc g J ∧ detachedExc g J

/-- Live listers of a target: every non-pending node that still lists `j`
among its parents lies in the given schedule list. -/
def listersIn (g : Graph) (J : List Nat) (j : Nat) (cs : List Nat) : Prop :=
  ∀ e ∈ g, Prod.fst e ∉ J → j ∈ (Prod.snd e).parents → Prod.fst e ∈ cs

/-- Node shrinking: same virus, child and parent lists are sublists. -/
def nodeSub (a b : Node) : Prop :=
  a.virus = b.virus ∧ a.children.Sublist b.children ∧ a.parents.Sublist b.parents

/-- Graph shrinking: keys form a sublist and every surviving node shrank. -/
def graphSub (g1 g : Graph) : Prop :=
  (keys g1).Sublist (keys g) ∧
  ∀ k n1, gfind g1 k = some n1 → ∃ n, gfind g k = some n ∧ nodeSub n1 n

/-- Precondition of the `removeHelper` contract: the invariant holds for
the pending set `J`, the target is present, and — when the target is itself
pending (a re-entrant removal through a self loop) — its current child set
avoids `J` and every live non-pending node still listing it as a parent is
among its current children. -/
def helperPre (cg : Graph) (J : List Nat) (j : Nat) : Prop :=
  removeInv cg J ∧
  ∃ jn, gfind cg j = some jn ∧
    (j ∈ J →
      (∀ x ∈ jn.children, x ∉ J) ∧
      (∀ e ∈ cg, Prod.fst e ∉ J → j ∈ (Prod.snd e).parents →
        Prod.fst e ∈ jn.children))

/-- Postcondition of the `removeHelper` contract: the target is gone; every
surviving non-pending node is the original node with dead ids filtered out
of both sets; every surviving pending node keeps its parents and loses only
dead children; the invariant still holds. -/
def helperPost (cg : Graph) (J : List Nat) (j : Nat) (g1 : Graph) : Prop :=
  j ∉ keys g1 ∧
  (∀ k n1, gfind g1 k = some n1 → k ∉ J →
    ∃ n, gfind cg k = some n ∧ n1.virus = n.virus ∧
      n1.children = n.children.filter (fun x => decide (x ∈ keys g1)) ∧
      n1.parents = n.parents.filter (fun x => decide (x ∈ keys g1))) ∧
  (∀ k n1, gfind g1 k = some n1 → k ∈ J →
    ∃ n, gfind cg k = some n ∧ n1.virus = n.virus ∧ n1.parents = n.parents ∧
      n1.children.Sublist n.children ∧
      (∀ y ∈ n.children, y ∈ keys g1 → y ∈ n1.children)) ∧
  removeInv g1 J

/-- Loop invariant of the child loop of `remove_helper` (`j` is the node
being removed, already detached and recorded in `J`; `cs` the unprocessed
schedule). -/
def loopPre (cg : Graph) (J : List Nat) (j : Nat) (cs : List Nat) : Prop :=
  removeInv cg J ∧ j ∈ J ∧
  (∀ c ∈ cs, c ∈ J → c = j) ∧
  listersIn cg J j cs ∧
  (∀ e ∈ cg, Prod.fst e ∉ J → j ∈ (Prod.snd e).parents →
    ∀ jn, gfind cg j = some jn → Prod.fst e ∈ jn.children) ∧
  (∀ jn, gfind cg j = some jn → ∀ x ∈ jn.children, x ∉ J)

/-- Postcondition of the child loop relative to its input. -/
def loopPost (cg : Graph) (J : List Nat) (j : Nat) (out : Graph) : Prop :=
  (∀ k n1, gfind out k = some n1 → k ∉ J →
    ∃ n, gfind cg k = some n ∧ n1.virus = n.virus ∧
      n1.children = n.children.filter (fun x => decide (x ∈ keys out)) ∧
      n1.parents = n.parents.filter (fun x => decide (x ∈ keys out ∧ x ≠ j))) ∧
  (∀ k n1, gfind out k = some n1 → k ∈ J → k ≠ j →
    ∃ n, gfind cg k = some n ∧ n1.virus = n.virus ∧ n1.parents = n.parents ∧
      n1.children.Sublist n.children ∧
      (∀ y ∈ n.children, y ∈ keys out → y ∈ n1.children)) ∧
  (∀ n1, gfind out j = some n1 →
    ∃ n, gfind cg j = some n ∧ n1.virus = n.virus ∧
      n1.children.Sublist n.children ∧
      (∀ y ∈ n.children, y ∈ keys out → y ∈ n1.children)) ∧
  listersIn out J j [] ∧
  removeInv out J

deriving instance DecidableEq for Except

instance (g : Graph) : Decidable (keysNodup g) := by
  unfold keysNodup; infer_instance

instance (g : Graph) : Decidable (virusEq g) := by
  unfold virusEq; infer_instance

instance (g : Graph) : Decidable (sortedSets g) := by
  unfold sortedSets; infer_instance

instance (g : Graph) : Decidable (closedRefs g) := by
  unfold closedRefs; infer_instance

instance (g : Graph) : Decidable (symmRefs g) := by
  unfold symmRefs; infer_instance

instance (stem : Nat) (g : Graph) : Decidable (stemNotChild stem g) := by
  unfold stemNotChild; infer_instance

instance (g : Graph) : Decidable (nodupSets g) := by
  unfold nodupSets; infer_instance

instance (g : Graph) (J : List Nat) : Decidable (symmExc g J) := by
  unfold symmExc; infer_instance

instance (g : Graph) (J : List Nat) : Decidable (closedExc g J) := by
  unfold closedExc; infer_instance

instance (g : Graph) (J : List Nat) : Decidable (detachedExc g J) := by
  unfold detachedExc; infer_instance

instance (g : Graph) (J : List Nat) : Decidable (removeInv g J) := by
  unfold removeInv; infer_instance

instance (g : Graph) (J : List Nat) (j : Nat) (cs : List Nat) :
    Decidable (listersIn g J j cs) := by
  unfold listersIn; infer_instance

/-! ## Lemmas about the embedded `std::set` operations -/

theorem mem_insSet {a x : Nat} {l : List Nat} :
    a ∈ insSet x l ↔ a = x ∨ a ∈ l := by
  induction l with
  | nil => simp [insSet]
  | cons y ys ih =>
    by_cases h1 : x < y
    · simp [insSet, h1]
    · by_cases h2 : x = y
      · subst h2; simp [insSet, h1]
      · simp [insSet, h1, h2, ih]
        tauto

theorem insSet_sorted {x : Nat} {l : List Nat}
    (h : List.Sorted (· < ·) l) : List.Sorted (· < ·) (insSet x l) := by
  induction l with
  | nil => simp [insSet]
  | cons y ys ih =>
    rcases List.sorted_cons.mp h with ⟨hy, hys⟩
    by_cases h1 : x < y
    · simp only [insSet, if_pos h1]
      exact List.sorted_cons.mpr ⟨by
        intro b hb
        rcases List.mem_cons.mp hb with rfl | hb
        · exact h1
        · exact h1.trans (hy b hb), h⟩
    · by_cases h2 : x = y
      · subst h2
        simp only [insSet, if_neg h1, if_pos rfl]
        exact h
      · simp only [insSet, if_neg h1, if_neg h2]
        refine List.sorted_cons.mpr ⟨?_, ih hys⟩
        intro b hb
        rcases mem_insSet.mp hb with rfl | hb
        · omega
        · exact hy b hb

theorem eraseSet_sublist (x : Nat) (l : List Nat) : (eraseSet x l).Sublist l := by
  induction l with
  | nil => simp [eraseSet]
  | cons y ys ih =>
    by_cases h : x = y
    · simp [eraseSet, h]
    · simp only [eraseSet, if_neg h]
      exact ih.cons₂ y

theorem mem_of_mem_eraseSet {a x : Nat} {l : List Nat} (h : a ∈ eraseSet x l) :
    a ∈ l := (eraseSet_sublist x l).mem h

theorem eraseSet_eq_filter {x : Nat} {l : List Nat} (h : l.Nodup) :
    eraseSet x l = l.filter (fun a => a ≠ x) := by
  induction l with
  | nil => rfl
  | cons y ys ih =>
    rcases List.nodup_cons.mp h with ⟨hy, hys⟩
    by_cases hx : x = y
    · subst hx
      have hfe : ys.filter (fun a => a ≠ x) = ys := by
        apply List.filter_eq_self.mpr
        intro a ha
        simp only [ne_eq, decide_eq_true_eq]
        rintro rfl; exact hy ha
      rw [List.filter_cons_of_neg (by simp), hfe]
      simp [eraseSet]
    · simp only [eraseSet, if_neg hx, ih hys]
      rw [List.filter_cons_of_pos]
      simp only [ne_eq, decide_eq_true_eq]
      omega

theorem mem_eraseSet {a x : Nat} {l : List Nat} (h : l.Nodup) :
    a ∈ eraseSet x l ↔ a ∈ l ∧ a ≠ x := by
  rw [eraseSet_eq_filter h, List.mem_filter]
  simp

theorem not_mem_eraseSet {x : Nat} {l : List Nat} (h : l.Nodup) :
    x ∉ eraseSet x l := by
  intro hx
  exact ((mem_eraseSet h).mp hx).2 rfl

theorem eraseSet_sorted {x : Nat} {l : List Nat}
    (h : List.Sorted (· < ·) l) : List.Sorted (· < ·) (eraseSet x l) :=
  h.sublist (eraseSet_sublist x l)

theorem length_eraseSet_ge (x : Nat) (l : List Nat) :
    l.length ≤ (eraseSet x l).length + 1 := by
  induction l with
  | nil => simp [eraseSet]
  | cons y ys ih =>
    by_cases h : x = y
    · simp [eraseSet, h]
    · simp only [eraseSet, if_neg h, List.length_cons]
      omega

theorem sorted_nodup {l : List Nat} (h : List.Sorted (· < ·) l) : l.Nodup :=
  h.nodup

theorem eraseSet_of_not_mem {x : Nat} {l : List Nat} (h : x ∉ l) :
    eraseSet x l = l := by
  induction l with
  | nil => rfl
  | cons y ys ih =>
    simp only [List.mem_cons, not_or] at h
    simp [eraseSet, h.1, ih h.2]

/-! ## Lemmas about the embedded `std::map` operations -/

theorem gfind_eq_none_iff {g : Graph} {k : Nat} :
    gfind g k = none ↔ k ∉ keys g := by
  induction g with
  | nil => simp [gfind, keys]
  | cons e rest ih =>
    obtain ⟨k₁, n₁⟩ := e
    by_cases h : k = k₁
    · subst h; simp [gfind, keys]
    · simp [gfind, h, keys, ih]

theorem gfind_isSome_iff {g : Graph} {k : Nat} :
    (gfind g k).isSome = true ↔ k ∈ keys g := by
  rw [Option.isSome_iff_ne_none]
  simp [gfind_eq_none_iff]

theorem containsKey_iff {g : Graph} {k : Nat} :
    containsKey g k = true ↔ k ∈ keys g := gfind_isSome_iff

theorem mem_of_gfind {g : Graph} {k : Nat} {n : Node} (h : gfind g k = some n) :
    (k, n) ∈ g := by
  induction g with
  | nil => simp [gfind] at h
  | cons e rest ih =>
    obtain ⟨k₁, n₁⟩ := e
    by_cases hk : k = k₁
    · subst hk
      simp only [gfind, if_pos rfl, Option.some.injEq, if_true] at h
      subst h; exact List.mem_cons_self _ _
    · simp only [gfind, if_neg hk] at h
      exact List.mem_cons_of_mem _ (ih h)

theorem gfind_of_mem {g : Graph} {k : Nat} {n : Node}
    (hnd : (keys g).Nodup) (h : (k, n) ∈ g) : gfind g k = some n := by
  induction g with
  | nil => simp at h
  | cons e rest ih =>
    obtain ⟨k₁, n₁⟩ := e
    rcases List.mem_cons.mp h with he | hm
    · rw [Prod.mk.injEq] at he
      obtain ⟨rfl, rfl⟩ := he
      simp [gfind]
    · have hk : k ≠ k₁ := by
        rintro rfl
        exact (List.nodup_cons.mp hnd).1 (List.mem_map.mpr ⟨(k, n), hm, rfl⟩)
      simp only [gfind, if_neg hk]
      exact ih (List.nodup_cons.mp hnd).2 hm

theorem gfind_ginsert_self {g : Graph} {k : Nat} {n : Node}
    (h : gfind g k = none) : gfind (ginsert k n g) k = some n := by
  induction g with
  | nil => simp [ginsert, gfind]
  | cons e rest ih =>
    obtain ⟨k₁, n₁⟩ := e
    by_cases hk : k = k₁
    · subst hk; simp [gfind] at h
    · simp only [gfind, if_neg hk] at h
      by_cases h1 : k < k₁
      · simp [ginsert, h1, gfind, hk]
      · simp [ginsert, h1, hk, gfind, ih h]

theorem gfind_ginsert_ne {g : Graph} {k k₂ : Nat} {n : Node}
    (h : k₂ ≠ k) : gfind (ginsert k n g) k₂ = gfind g k₂ := by
  induction g with
  | nil => simp [ginsert, gfind, h]
  | cons e rest ih =>
    obtain ⟨k₁, n₁⟩ := e
    by_cases h1 : k < k₁
    · simp [ginsert, h1, gfind, h]
    · by_cases h2 : k = k₁
      · simp [ginsert, h1, h2]
      · by_cases h3 : k₂ = k₁
        · simp [ginsert, h1, h2, gfind, h3]
        · simp [ginsert, h1, h2, gfind, h3, ih]

theorem gerase_ginsert {g : Graph} {k : Nat} {n : Node}
    (h : gfind g k = none) : gerase k (ginsert k n g) = g := by
  induction g with
  | nil => simp [ginsert, gerase]
  | cons e rest ih =>
    obtain ⟨k₁, n₁⟩ := e
    by_cases hk : k = k₁
    · subst hk; simp [gfind] at h
    · simp only [gfind, if_neg hk] at h
      by_cases h1 : k < k₁
      · simp [ginsert, h1, gerase, hk]
      · simp [ginsert, h1, hk, gerase, ih h]

theorem gfind_gerase_ne {g : Graph} {k k₂ : Nat} (h : k₂ ≠ k) :
    gfind (gerase k g) k₂ = gfind g k₂ := by
  induction g with
  | nil => simp [gerase]
  | cons e rest ih =>
    obtain ⟨k₁, n₁⟩ := e
    by_cases hk : k = k₁
    · subst hk; simp [gerase, gfind, h]
    · by_cases h2 : k₂ = k₁
      · simp [gerase, hk, gfind, h2]
      · simp [gerase, hk, gfind, h2, ih]

theorem keys_gerase_sublist (k : Nat) (g : Graph) :
    (keys (gerase k g)).Sublist (keys g) := by
  induction g with
  | nil => simp [gerase]
  | cons e rest ih =>
    obtain ⟨k₁, n₁⟩ := e
    by_cases hk : k = k₁
    · simp [gerase, hk, keys]
    · simp only [gerase, if_neg hk, keys, List.map_cons]
      exact ih.cons₂ k₁

theorem gfind_gerase_self {g : Graph} {k : Nat} (hnd : (keys g).Nodup) :
    gfind (gerase k g) k = none := by
  induction g with
  | nil => simp [gerase, gfind]
  | cons e rest ih =>
    obtain ⟨k₁, n₁⟩ := e
    rcases List.nodup_cons.mp hnd with ⟨h1, h2⟩
    by_cases hk : k = k₁
    · subst hk
      simp only [gerase, if_pos rfl]
      exact gfind_eq_none_iff.mpr h1
    · simp [gerase, hk, gfind, ih h2]

theorem keys_gmodify (k : Nat) (f : Node → Node) (g : Graph) :
    keys (gmodify k f g) = keys g := by
  induction g with
  | nil => rfl
  | cons e rest ih =>
    obtain ⟨k₁, n₁⟩ := e
    by_cases hk : k = k₁
    · simp [gmodify, hk, keys]
    · simp [gmodify, hk, keys] at ih ⊢
      exact ih

theorem gfind_gmodify_self {g : Graph} {k : Nat} {n : Node} {f : Node → Node}
    (h : gfind g k = some n) : gfind (gmodify k f g) k = some (f n) := by
  induction g with
  | nil => simp [gfind] at h
  | cons e rest ih =>
    obtain ⟨k₁, n₁⟩ := e
    by_cases hk : k = k₁
    · subst hk
      simp only [gfind, if_pos rfl, Option.some.injEq, if_true] at h
      subst h
      simp [gmodify, gfind]
    · simp only [gfind, if_neg hk] at h
      simp [gmodify, hk, gfind, ih h]

theorem gfind_gmodify_ne {g : Graph} {k k₂ : Nat} {f : Node → Node} (h : k₂ ≠ k) :
    gfind (gmodify k f g) k₂ = gfind g k₂ := by
  induction g with
  | nil => simp [gmodify]
  | cons e rest ih =>
    obtain ⟨k₁, n₁⟩ := e
    by_cases hk : k = k₁
    · subst hk; simp [gmodify, gfind, h]
    · by_cases h2 : k₂ = k₁
      · simp [gmodify, hk, gfind, h2]
      · simp [gmodify, hk, gfind, h2, ih]

theorem gmodify_of_absent {g : Graph} {k : Nat} {f : Node → Node}
    (h : gfind g k = none) : gmodify k f g = g := by
  induction g with
  | nil => rfl
  | cons e rest ih =>
    obtain ⟨k₁, n₁⟩ := e
    by_cases hk : k = k₁
    · subst hk; simp [gfind] at h
    · simp only [gfind, if_neg hk] at h
      simp [gmodify, hk, ih h]

theorem keys_ginsert_perm {g : Graph} {k : Nat} {n : Node}
    (h : gfind g k = none) : (keys (ginsert k n g)).Perm (k :: keys g) := by
  induction g with
  | nil => simp [ginsert, keys]
  | cons e rest ih =>
    obtain ⟨k₁, n₁⟩ := e
    by_cases hk : k = k₁
    · subst hk; simp [gfind] at h
    · simp only [gfind, if_neg hk] at h
      by_cases h1 : k < k₁
      · simp [ginsert, h1, keys]
      · simp only [ginsert, if_neg h1, if_neg hk, keys, List.map_cons]
        refine ((ih h).cons k₁).trans ?_
        exact List.Perm.swap k k₁ (keys rest)

theorem virusEq_find {g : Graph} {k : Nat} {n : Node}
    (h : virusEq g) (hf : gfind g k = some n) : n.virus = k :=
  h (k, n) (mem_of_gfind hf)

theorem sortedSets_find {g : Graph} {k : Nat} {n : Node}
    (h : sortedSets g) (hf : gfind g k = some n) :
    List.Sorted (· < ·) n.children ∧ List.Sorted (· < ·) n.parents :=
  h (k, n) (mem_of_gfind hf)

theorem closedRefs_find {g : Graph} {k : Nat} {n : Node}
    (h : closedRefs g) (hf : gfind g k = some n) :
    (∀ c ∈ n.children, c ∈ keys g) ∧ (∀ p ∈ n.parents, p ∈ keys g) :=
  h (k, n) (mem_of_gfind hf)

theorem symmRefs_find {g : Graph} {p c : Nat} {pn cn : Node}
    (h : symmRefs g) (hp : gfind g p = some pn) (hc : gfind g c = some cn) :
    (c ∈ pn.children ↔ p ∈ cn.parents) :=
  h (p, pn) (mem_of_gfind hp) (c, cn) (mem_of_gfind hc)

theorem mem_keys_of_gfind {g : Graph} {k : Nat} {n : Node}
    (h : gfind g k = some n) : k ∈ keys g := by
  rcases Option.isSome_iff_exists.mpr ⟨n, h⟩ with h1
  exact gfind_isSome_iff.mp (by rw [h]; rfl)

theorem gfind_some_of_mem_keys {g : Graph} {k : Nat} (h : k ∈ keys g) :
    ∃ n, gfind g k = some n := by
  have := gfind_isSome_iff.mpr h
  exact Option.isSome_iff_exists.mp this

/-! ## Basic characterizations of the operations -/

namespace VG

theorem create_one_eq_many (v : VG) (id p : Nat) :
    create_one v id p = create_many v id [p] := by
  unfold create_one create_many
  by_cases h1 : existsV v id
  · simp [h1]
  · simp only [h1, if_false, Bool.false_eq_true]
    by_cases h2 : existsV v p
    · simp only [h2, Bool.not_true, List.any_cons, List.any_nil, Bool.or_false,
        Bool.false_eq_true, if_false, List.length_cons, List.length_nil]
      cases hf : gfind v.graph p with
      | none =>
        exfalso
        exact (gfind_eq_none_iff.mp hf) (containsKey_iff.mp h2)
      | some pn =>
        simp only [create_virus_set, hf]
        cases hf1 : gfind (ginsert id ⟨[], insSet pn.virus [], id⟩ v.graph) p with
        | none => simp [prepSwaps, hf1]
        | some pn1 => simp [prepSwaps, hf1, applySwaps]
    · simp [h1, h2]

theorem create_many_nil_fresh {v : VG} {id : Nat} (h : existsV v id = false) :
    create_many v id [] = .ok v := by
  unfold create_many
  simp [h]

end VG


namespace VG

theorem gfind_none_of_not_exists {v : VG} {id : Nat} (h : ¬ existsV v id = true) :
    gfind v.graph id = none := by
  rcases hx : gfind v.graph id with _ | n
  · rfl
  · exact absurd (by simp [existsV, containsKey, hx]) h

theorem gfind_isSome_of_exists {v : VG} {id : Nat} (h : existsV v id = true) :
    ∃ n, gfind v.graph id = some n := by
  rcases hx : gfind v.graph id with _ | n
  · simp [existsV, containsKey, hx] at h
  · exact ⟨n, rfl⟩

theorem create_oneT_error_state {boom : Bool} {v : VG} {id p : Nat}
    (h : ((create_oneT boom v id p).2).isSome) : (create_oneT boom v id p).1 = v := by
  unfold create_oneT at h ⊢
  by_cases h1 : existsV v id
  · simp [h1]
  · have hfid : gfind v.graph id = none := gfind_none_of_not_exists h1
    by_cases h2 : existsV v p
    · simp only [h1, Bool.false_eq_true, if_false, h2, Bool.not_true,
        Bool.false_eq_true, if_false] at h ⊢
      cases hf : gfind v.graph p with
      | none => simp
      | some pn =>
        by_cases hb : boom
        · simp only [hf, hb, if_true]
          rw [gerase_ginsert hfid]
        · simp only [hf, hb, Bool.false_eq_true, if_false] at h ⊢
          cases hf1 : gfind (ginsert id ⟨[], insSet pn.virus [], id⟩ v.graph) p with
          | none =>
            simp only [hf1]
            rw [gerase_ginsert hfid]
          | some pn1 => simp [hf1] at h
    · simp [h1, h2]

theorem create_manyT_error_state {boom : Option Nat} {v : VG} {id : Nat} {ps : List Nat}
    (h : ((create_manyT boom v id ps).2).isSome) : (create_manyT boom v id ps).1 = v := by
  unfold create_manyT at h ⊢
  by_cases h1 : existsV v id
  · simp [h1]
  · have hfid : gfind v.graph id = none := gfind_none_of_not_exists h1
    by_cases h2 : ps.any (fun p => !existsV v p)
    · simp [h1, h2]
    · by_cases h3 : ps.length = 0
      · simp [h1, h2, h3] at h
      · simp only [h1, Bool.false_eq_true, if_false, h2, if_false, h3] at h ⊢
        cases hcv : create_virus_set v.graph ps with
        | none => simp
        | some parents =>
          cases hps : prepSwapsT (ginsert id ⟨[], parents, id⟩ v.graph) id boom ps with
          | none =>
            simp only [hcv, hps]
            rw [gerase_ginsert hfid]
          | some swaps => simp [hcv, hps] at h

theorem connectT_error_state {boom : Bool} {v : VG} {c p : Nat}
    (h : ((connectT boom v c p).2).isSome) : (connectT boom v c p).1 = v := by
  unfold connectT at h ⊢
  by_cases h1 : (!existsV v c || !existsV v p) = true
  · simp [h1]
  · simp only [h1, Bool.false_eq_true, if_false] at h ⊢
    cases hc : gfind v.graph c with
    | none => simp
    | some cn =>
      cases hp : gfind v.graph p with
      | none => simp
      | some pn =>
        by_cases hmem : p ∈ cn.parents
        · simp [hmem]
        · by_cases hb : boom
          · simp [hmem, hb]
          · simp [hc, hp, hmem, hb] at h

theorem removeT_error_state {boom : Bool} {v : VG} {id : Nat}
    (h : ((removeT boom v id).2).isSome) : (removeT boom v id).1 = v := by
  unfold removeT at h ⊢
  by_cases h1 : existsV v id
  · by_cases h2 : id = v.stem_id
    · subst h2
      simp [h1]
    · by_cases hb : boom
      · simp [h1, h2, hb]
      · cases hr : removeHelper v.graph (removeFuel v.graph) v.graph id with
        | none => simp [h1, h2, hb, hr]
        | some g1 => simp [h1, h2, hb, hr] at h
  · simp [h1]

theorem prepSwapsT_some {g1 : Graph} {nv : Nat} {boom : Option Nat} {ps : List Nat}
    {swaps : List (Nat × List Nat)}
    (h : prepSwapsT g1 nv boom ps = some swaps) : prepSwaps g1 nv ps = some swaps := by
  induction ps generalizing boom swaps with
  | nil =>
    simp only [prepSwapsT] at h
    simpa [prepSwaps] using h
  | cons q qs ih =>
    simp only [prepSwapsT] at h
    by_cases hbz : boom = some 0
    · simp [hbz] at h
    · simp only [hbz, if_false] at h
      cases hq : gfind g1 q with
      | none => simp [hq] at h
      | some n =>
        simp only [hq] at h
        cases hrest : prepSwapsT g1 nv (boom.map (fun x => x - 1)) qs with
        | none => simp [hrest] at h
        | some rest =>
          simp only [hrest, Option.some.injEq] at h
          simp only [prepSwaps, hq, ih hrest]
          rw [h]

theorem create_oneT_none {boom : Bool} {v : VG} {id p : Nat}
    (h : (create_oneT boom v id p).2 = none) :
    create_one v id p = .ok (create_oneT boom v id p).1 := by
  unfold create_oneT at h ⊢
  unfold create_one
  by_cases h1 : existsV v id
  · simp [h1] at h
  · by_cases h2 : existsV v p
    · simp only [h1, Bool.false_eq_true, if_false, h2, Bool.not_true,
        Bool.false_eq_true, if_false] at h ⊢
      cases hf : gfind v.graph p with
      | none => simp [hf] at h
      | some pn =>
        by_cases hb : boom
        · simp [hf, hb] at h
        · simp only [hf, hb, Bool.false_eq_true, if_false] at h ⊢
          cases hf1 : gfind (ginsert id ⟨[], insSet pn.virus [], id⟩ v.graph) p with
          | none => simp [hf1] at h
          | some pn1 => simp [hf1]
    · simp [h1, h2] at h

theorem create_manyT_none {boom : Option Nat} {v : VG} {id : Nat} {ps : List Nat}
    (h : (create_manyT boom v id ps).2 = none) :
    create_many v id ps = .ok (create_manyT boom v id ps).1 := by
  unfold create_manyT at h ⊢
  unfold create_many
  by_cases h1 : existsV v id
  · simp [h1] at h
  · by_cases h2 : ps.any (fun p => !existsV v p)
    · simp [h1, h2] at h
    · by_cases h3 : ps.length = 0
      · simp [h1, h2, h3]
      · simp only [h1, Bool.false_eq_true, if_false, h2, if_false, h3] at h ⊢
        cases hcv : create_virus_set v.graph ps with
        | none => simp [hcv] at h
        | some parents =>
          cases hps : prepSwapsT (ginsert id ⟨[], parents, id⟩ v.graph) id boom ps with
          | none => simp [hcv, hps] at h
          | some swaps =>
            simp only [hcv, hps, prepSwapsT_some hps]

theorem connectT_none {boom : Bool} {v : VG} {c p : Nat}
    (h : (connectT boom v c p).2 = none) :
    connect v c p = .ok (connectT boom v c p).1 := by
  unfold connectT at h ⊢
  unfold connect
  by_cases h1 : (!existsV v c || !existsV v p) = true
  · simp [h1] at h
  · simp only [h1, Bool.false_eq_true, if_false] at h ⊢
    cases hc : gfind v.graph c with
    | none => simp [hc] at h
    | some cn =>
      cases hp : gfind v.graph p with
      | none => simp [hc, hp] at h
      | some pn =>
        by_cases hmem : p ∈ cn.parents
        · simp [hc, hp, hmem]
        · by_cases hb : boom
          · simp [hc, hp, hmem, hb] at h
          · simp [hc, hp, hmem, hb]

theorem removeT_none {boom : Bool} {v : VG} {id : Nat}
    (h : (removeT boom v id).2 = none) :
    remove v id = .ok (removeT boom v id).1 := by
  unfold removeT at h ⊢
  unfold remove
  by_cases h1 : existsV v id
  · by_cases h2 : id = v.stem_id
    · subst h2
      simp [h1] at h
    · by_cases hb : boom
      · simp [h1, h2, hb] at h
      · cases hr : removeHelper v.graph (removeFuel v.graph) v.graph id with
        | none => simp [h1, h2, hb, hr] at h
        | some g1 => simp [h1, h2, hb, hr]
  · simp [h1] at h

end VG

/-! ## Supporting lemmas for the create/connect claims -/

namespace VG

theorem create_one_alreadyCreated {v : VG} {id p : Nat} (h : existsV v id = true) :
    create_one v id p = .error .virusAlreadyCreated := by
  unfold create_one
  simp [h]

theorem create_many_alreadyCreated {v : VG} {id : Nat} {ps : List Nat}
    (h : existsV v id = true) :
    create_many v id ps = .error .virusAlreadyCreated := by
  unfold create_many
  simp [h]

theorem create_one_notFound {v : VG} {id p : Nat}
    (h1 : existsV v id = false) (h2 : existsV v p = false) :
    create_one v id p = .error .virusNotFound := by
  unfold create_one
  simp [h1, h2]

theorem create_many_notFound {v : VG} {id : Nat} {ps : List Nat} {p : Nat}
    (h1 : existsV v id = false) (hmem : p ∈ ps) (h2 : existsV v p = false) :
    create_many v id ps = .error .virusNotFound := by
  unfold create_many
  have hany : ps.any (fun q => !existsV v q) = true :=
    List.any_eq_true.mpr ⟨p, hmem, by simp [h2]⟩
  simp [h1, hany]

theorem create_one_postcondition {v : VG} {id pid : Nat}
    (hq : virusEq v.graph) (hid : existsV v id = false) (hp : existsV v pid = true) :
    ∃ v₁, create_one v id pid = .ok v₁ ∧ existsV v₁ id = true ∧
      get_parents v₁ id = .ok [pid] ∧
      ∃ pn₁, gfind v₁.graph pid = some pn₁ ∧ id ∈ pn₁.children := by
  obtain ⟨pn, hf⟩ := gfind_isSome_of_exists hp
  have hfid : gfind v.graph id = none := gfind_none_of_not_exists (by simp [hid])
  have hne : pid ≠ id := by
    rintro rfl
    rw [hf] at hfid
    cases hfid
  have hpv : pn.virus = pid := virusEq_find hq hf
  have hg1 : gfind (ginsert id ⟨[], insSet pn.virus [], id⟩ v.graph) pid = some pn :=
    (gfind_ginsert_ne hne).trans hf
  refine ⟨⟨gmodify pid
      (fun n => { n with children := insSet id pn.children })
      (ginsert id ⟨[], insSet pn.virus [], id⟩ v.graph), v.stem_id⟩, ?_, ?_, ?_, ?_⟩
  · unfold create_one
    simp [hid, hp, hf, hg1]
  · have : gfind (gmodify pid
        (fun n => { n with children := insSet id pn.children })
        (ginsert id ⟨[], insSet pn.virus [], id⟩ v.graph)) id =
        some ⟨[], insSet pn.virus [], id⟩ := by
      rw [gfind_gmodify_ne (fun h => hne h.symm), gfind_ginsert_self hfid]
    simp [existsV, containsKey, this]
  · have : gfind (gmodify pid
        (fun n => { n with children := insSet id pn.children })
        (ginsert id ⟨[], insSet pn.virus [], id⟩ v.graph)) id =
        some ⟨[], insSet pn.virus [], id⟩ := by
      rw [gfind_gmodify_ne (fun h => hne h.symm), gfind_ginsert_self hfid]
    unfold get_parents
    simp only [this]
    rw [hpv]
    rfl
  · refine ⟨⟨insSet id pn.children, pn.parents, pn.virus⟩, ?_, ?_⟩
    · show gfind (gmodify pid _ _) pid = _
      rw [gfind_gmodify_self hg1]
    · exact mem_insSet.mpr (Or.inl rfl)

theorem connect_ok_of_parent_mem {v : VG} {c p : Nat} {cn : Node}
    (hc : gfind v.graph c = some cn) (hp : existsV v p = true)
    (hmem : p ∈ cn.parents) : connect v c p = .ok v := by
  have hce : existsV v c = true := by simp [existsV, containsKey, hc]
  obtain ⟨pn, hpf⟩ := gfind_isSome_of_exists hp
  unfold connect
  simp [hce, hp, hc, hpf, hmem]

theorem connect_succeeds {v : VG} {c p : Nat}
    (hc : existsV v c = true) (hp : existsV v p = true) :
    ∃ v₁, connect v c p = .ok v₁ := by
  obtain ⟨cn, hcf⟩ := gfind_isSome_of_exists hc
  obtain ⟨pn, hpf⟩ := gfind_isSome_of_exists hp
  unfold connect
  by_cases hmem : p ∈ cn.parents
  · exact ⟨v, by simp [hc, hp, hcf, hpf, hmem]⟩
  · exact ⟨⟨gmodify p (fun n => { n with children := insSet cn.virus n.children })
      (gmodify c (fun n => { n with parents := insSet pn.virus n.parents }) v.graph),
      v.stem_id⟩, by simp [hc, hp, hcf, hpf, hmem]⟩

theorem connect_idem {v : VG} {c p : Nat} {v₁ : VG}
    (hq : virusEq v.graph) (hc : existsV v c = true) (hp : existsV v p = true)
    (h : connect v c p = .ok v₁) : connect v₁ c p = .ok v₁ := by
  obtain ⟨cn, hcf⟩ := gfind_isSome_of_exists hc
  obtain ⟨pn, hpf⟩ := gfind_isSome_of_exists hp
  have hpv : pn.virus = p := virusEq_find hq hpf
  unfold connect at h
  simp only [hc, hp, Bool.not_true, Bool.or_self, Bool.false_eq_true, if_false,
    hcf, hpf] at h
  by_cases hmem : p ∈ cn.parents
  · simp only [hmem, if_true, Except.ok.injEq] at h
    subst h
    exact connect_ok_of_parent_mem hcf hp hmem
  · simp only [hmem, if_false, Except.ok.injEq] at h
    subst h
    by_cases hcp : c = p
    · subst hcp
      have hcn : cn = pn := by rw [hcf] at hpf; exact Option.some.inj hpf
      subst hcn
      have hX : gfind (gmodify c
          (fun n => { n with parents := insSet cn.virus n.parents }) v.graph) c =
          some { cn with parents := insSet cn.virus cn.parents } :=
        gfind_gmodify_self hcf
      have hfind := gfind_gmodify_self
        (f := fun n => { n with children := insSet cn.virus n.children }) hX
      refine connect_ok_of_parent_mem hfind ?_ ?_
      · simp [existsV, containsKey, hfind]
      · show c ∈ insSet cn.virus cn.parents
        rw [hpv]
        exact mem_insSet.mpr (Or.inl rfl)
    · have hX : gfind (gmodify c
          (fun n => { n with parents := insSet pn.virus n.parents }) v.graph) c =
          some { cn with parents := insSet pn.virus cn.parents } :=
        gfind_gmodify_self hcf
      have hfind : gfind (gmodify p
          (fun n => { n with children := insSet cn.virus n.children })
          (gmodify c (fun n => { n with parents := insSet pn.virus n.parents })
            v.graph)) c = some { cn with parents := insSet pn.virus cn.parents } :=
        (gfind_gmodify_ne hcp).trans hX
      have hXp : gfind (gmodify c
          (fun n => { n with parents := insSet pn.virus n.parents }) v.graph) p =
          some pn :=
        (gfind_gmodify_ne (fun hh => hcp hh.symm)).trans hpf
      have hfp := gfind_gmodify_self
        (f := fun n => { n with children := insSet cn.virus n.children }) hXp
      refine connect_ok_of_parent_mem hfind ?_ ?_
      · simp [existsV, containsKey, hfp]
      · show p ∈ insSet pn.virus cn.parents
        rw [hpv]
        exact mem_insSet.mpr (Or.inl rfl)

end VG

/-! ## Claim theorems -/

/-- Claim C1: every mutating operation (both create overloads, connect,
remove) is strongly exception safe.  For each operation, the instrumented
variant — which can raise any error, including a user exception thrown
part-way through the parent-side updates — leaves the observable state
exactly equal to the pre-call state whenever it raises, and whenever it
returns normally the pure operation succeeds with exactly the state it
produced (the full effect is applied, no partial state exists). -/
theorem claim_C1_strong_exception_safety :
    (∀ (boom : Bool) (v : VG) (id p : Nat),
        ((VG.create_oneT boom v id p).2).isSome →
          (VG.create_oneT boom v id p).1 = v) ∧
    (∀ (boom : Option Nat) (v : VG) (id : Nat) (ps : List Nat),
        ((VG.create_manyT boom v id ps).2).isSome →
          (VG.create_manyT boom v id ps).1 = v) ∧
    (∀ (boom : Bool) (v : VG) (c p : Nat),
        ((VG.connectT boom v c p).2).isSome → (VG.connectT boom v c p).1 = v) ∧
    (∀ (boom : Bool) (v : VG) (id : Nat),
        ((VG.removeT boom v id).2).isSome → (VG.removeT boom v id).1 = v) ∧
    (∀ (boom : Bool) (v : VG) (id p : Nat),
        (VG.create_oneT boom v id p).2 = none →
          VG.create_one v id p = .ok (VG.create_oneT boom v id p).1) ∧
    (∀ (boom : Option Nat) (v : VG) (id : Nat) (ps : List Nat),
        (VG.create_manyT boom v id ps).2 = none →
          VG.create_many v id ps = .ok (VG.create_manyT boom v id ps).1) ∧
    (∀ (boom : Bool) (v : VG) (c p : Nat),
        (VG.connectT boom v c p).2 = none →
          VG.connect v c p = .ok (VG.connectT boom v c p).1) ∧
    (∀ (boom : Bool) (v : VG) (id : Nat),
        (VG.removeT boom v id).2 = none →
          VG.remove v id = .ok (VG.removeT boom v id).1) :=
  ⟨fun _ _ _ _ h => VG.create_oneT_error_state h,
   fun _ _ _ _ h => VG.create_manyT_error_state h,
   fun _ _ _ _ h => VG.connectT_error_state h,
   fun _ _ _ h => VG.removeT_error_state h,
   fun _ _ _ _ h => VG.create_oneT_none h,
   fun _ _ _ _ h => VG.create_manyT_none h,
   fun _ _ _ _ h => VG.connectT_none h,
   fun _ _ _ h => VG.removeT_none h⟩

/-- Witness for claim C1: on a two-node graph, the multi-parent create of a
node under both existing nodes with a user exception thrown at the second
parent-side iteration (after the new node was already inserted) rolls the
state back to exactly the pre-call graph. -/
theorem claim_C1_strong_exception_safety_witness :
    ((VG.create_manyT (some 1) ⟨[(0, ⟨[1], [], 0⟩), (1, ⟨[], [0], 1⟩)], 0⟩ 9 [0, 1]).2).isSome = true ∧
      (VG.create_manyT (some 1) ⟨[(0, ⟨[1], [], 0⟩), (1, ⟨[], [0], 1⟩)], 0⟩ 9 [0, 1]).1 =
        ⟨[(0, ⟨[1], [], 0⟩), (1, ⟨[], [0], 1⟩)], 0⟩ :=
  ⟨by decide,
   claim_C1_strong_exception_safety.2.1 (some 1)
     ⟨[(0, ⟨[1], [], 0⟩), (1, ⟨[], [0], 1⟩)], 0⟩ 9 [0, 1] (by decide)⟩

/-- Claim C4: for a fresh identifier and a present parent (in a graph whose
nodes carry their own id in the `virus` field, as every reachable graph
does), `create(id, parentId)` succeeds, after which `exists id` holds,
`get_parents id` returns exactly `[parentId]`, and the parent's child set
contains `id`. -/
theorem claim_C4_create_one_postcondition (v : VG) (id pid : Nat)
    (hq : virusEq v.graph) (hid : VG.existsV v id = false)
    (hp : VG.existsV v pid = true) :
    ∃ v₁, VG.create_one v id pid = .ok v₁ ∧ VG.existsV v₁ id = true ∧
      VG.get_parents v₁ id = .ok [pid] ∧
      ∃ pn₁, gfind v₁.graph pid = some pn₁ ∧ id ∈ pn₁.children :=
  VG.create_one_postcondition hq hid hp

/-- Witness for claim C4 on the freshly constructed graph. -/
theorem claim_C4_create_one_postcondition_witness :
    virusEq (VG.construct 0).graph ∧ VG.existsV (VG.construct 0) 1 = false ∧
      VG.existsV (VG.construct 0) 0 = true ∧
      (∃ v₁, VG.create_one (VG.construct 0) 1 0 = .ok v₁ ∧
        VG.existsV v₁ 1 = true ∧ VG.get_parents v₁ 1 = .ok [0] ∧
        ∃ pn₁, gfind v₁.graph 0 = some pn₁ ∧ 1 ∈ pn₁.children) :=
  ⟨by decide, by decide, by decide,
   claim_C4_create_one_postcondition (VG.construct 0) 1 0
     (by decide) (by decide) (by decide)⟩

/-- Claim C5: both create overloads raise `VirusAlreadyCreated` whenever the
id is already present (before parent validation: no parent hypothesis is
needed), raise `VirusNotFound` whenever the id is fresh and a named parent
is missing, and on any failure — validation or a throw during the staged
mutation — the observable state equals the pre-call state and a fresh
candidate id is still absent afterwards. -/
theorem claim_C5_create_error_contract :
    (∀ (v : VG) (id p : Nat), VG.existsV v id = true →
        VG.create_one v id p = .error .virusAlreadyCreated) ∧
    (∀ (v : VG) (id : Nat) (ps : List Nat), VG.existsV v id = true →
        VG.create_many v id ps = .error .virusAlreadyCreated) ∧
    (∀ (v : VG) (id p : Nat), VG.existsV v id = false → VG.existsV v p = false →
        VG.create_one v id p = .error .virusNotFound) ∧
    (∀ (v : VG) (id : Nat) (ps : List Nat) (p : Nat), VG.existsV v id = false →
        p ∈ ps → VG.existsV v p = false →
        VG.create_many v id ps = .error .virusNotFound) ∧
    (∀ (boom : Bool) (v : VG) (id p : Nat),
        ((VG.create_oneT boom v id p).2).isSome →
          (VG.create_oneT boom v id p).1 = v ∧
          (VG.existsV v id = false →
            VG.existsV ((VG.create_oneT boom v id p).1) id = false)) ∧
    (∀ (boom : Option Nat) (v : VG) (id : Nat) (ps : List Nat),
        ((VG.create_manyT boom v id ps).2).isSome →
          (VG.create_manyT boom v id ps).1 = v ∧
          (VG.existsV v id = false →
            VG.existsV ((VG.create_manyT boom v id ps).1) id = false)) :=
  ⟨fun _ _ _ h => VG.create_one_alreadyCreated h,
   fun _ _ _ h => VG.create_many_alreadyCreated h,
   fun _ _ _ h1 h2 => VG.create_one_notFound h1 h2,
   fun _ _ _ _ h1 hmem h2 => VG.create_many_notFound h1 hmem h2,
   fun _ _ _ _ h =>
     ⟨VG.create_oneT_error_state h,
      fun hid => by rw [VG.create_oneT_error_state h]; exact hid⟩,
   fun _ _ _ _ h =>
     ⟨VG.create_manyT_error_state h,
      fun hid => by rw [VG.create_manyT_error_state h]; exact hid⟩⟩

/-- Witness for claim C5: a create with a present id raises
`VirusAlreadyCreated` even though the named parent is missing. -/
theorem claim_C5_create_error_contract_witness :
    VG.existsV (VG.construct 0) 0 = true ∧
      VG.create_one (VG.construct 0) 0 7 = .error .virusAlreadyCreated :=
  ⟨by decide, claim_C5_create_error_contract.1 (VG.construct 0) 0 7 (by decide)⟩

/-- Counterexample to claim C6: after the successful operation sequence
construct 0; create 1 0; connect 0 1; remove 1 (all raising no error), the
stem has been cascade-removed, and remove on the stem identifier then
raises `VirusNotFound`, not `TriedToRemoveStemVirus`. -/
theorem claim_C6_counterexample :
    VG.create_one (VG.construct 0) 1 0 =
        .ok ⟨[(0, ⟨[1], [], 0⟩), (1, ⟨[], [0], 1⟩)], 0⟩ ∧
      VG.connect ⟨[(0, ⟨[1], [], 0⟩), (1, ⟨[], [0], 1⟩)], 0⟩ 0 1 =
        .ok ⟨[(0, ⟨[1], [1], 0⟩), (1, ⟨[0], [0], 1⟩)], 0⟩ ∧
      VG.remove ⟨[(0, ⟨[1], [1], 0⟩), (1, ⟨[0], [0], 1⟩)], 0⟩ 1 =
        .ok ⟨[], 0⟩ ∧
      VG.remove (⟨[], 0⟩ : VG) (VG.get_stem_id ⟨[], 0⟩) =
        .error .virusNotFound := by
  refine ⟨?_, ?_, ?_, ?_⟩ <;> decide

/-- Claim C6 (amended): `remove` raises `VirusNotFound` when the id is
absent; it raises `TriedToRemoveStemVirus` when the id equals the stem
identifier and the stem is present (absence is checked first), so
`remove(stemId)` raises `TriedToRemoveStemVirus` whenever the stem is
present; in both failure cases the observable state is the pre-call state. -/
theorem claim_C6_remove_error_contract :
    (∀ (v : VG) (id : Nat), VG.existsV v id = false →
        VG.remove v id = .error .virusNotFound) ∧
    (∀ v : VG, VG.existsV v (VG.get_stem_id v) = true →
        VG.remove v (VG.get_stem_id v) = .error .triedToRemoveStemVirus) ∧
    (∀ (boom : Bool) (v : VG) (id : Nat),
        ((VG.removeT boom v id).2 = some .virusNotFound ∨
          (VG.removeT boom v id).2 = some .triedToRemoveStemVirus) →
          (VG.removeT boom v id).1 = v) := by
  refine ⟨?_, ?_, ?_⟩
  · intro v id h
    unfold VG.remove
    simp [h]
  · intro v h
    unfold VG.remove
    simp [VG.get_stem_id] at h ⊢
    simp [h]
  · intro boom v id h
    exact VG.removeT_error_state (by rcases h with h | h <;> simp [h])

/-- Witness for the amended claim C6 at the freshly constructed graph. -/
theorem claim_C6_remove_error_contract_witness :
    VG.existsV (VG.construct 3) (VG.get_stem_id (VG.construct 3)) = true ∧
      VG.remove (VG.construct 3) (VG.get_stem_id (VG.construct 3)) =
        .error .triedToRemoveStemVirus :=
  ⟨by decide, claim_C6_remove_error_contract.2.1 (VG.construct 3) (by decide)⟩

/-- Counterexample to claim C7: when the identifier is already present, the
multi-parent overload with an empty parent sequence raises
`VirusAlreadyCreated` instead of silently returning. -/
theorem claim_C7_counterexample :
    VG.create_many (VG.construct 0) 0 [] = .error .virusAlreadyCreated := by
  decide

/-- Claim C7 (amended): for every identifier that is not already present,
the multi-parent overload applied to an empty parent sequence performs no
operation at all — it returns normally, creates nothing, and leaves the
graph unchanged. -/
theorem claim_C7_empty_parents_noop (v : VG) (id : Nat)
    (h : VG.existsV v id = false) : VG.create_many v id [] = .ok v :=
  VG.create_many_nil_fresh h

/-- Witness for the amended claim C7. -/
theorem claim_C7_empty_parents_noop_witness :
    VG.existsV (VG.construct 0) 5 = false ∧
      VG.create_many (VG.construct 0) 5 [] = .ok (VG.construct 0) :=
  ⟨by decide, claim_C7_empty_parents_noop (VG.construct 0) 5 (by decide)⟩

/-- Claim C9: for identifiers both present (in a graph whose nodes carry
their id in the `virus` field), `connect` succeeds, applying it twice gives
the same state as applying it once, and when the parent is already
recorded the call returns without error and without structural change. -/
theorem claim_C9_connect_idempotent (v : VG) (c p : Nat)
    (hq : virusEq v.graph) (hc : VG.existsV v c = true)
    (hp : VG.existsV v p = true) :
    (∃ v₁, VG.connect v c p = .ok v₁) ∧
    (∀ v₁, VG.connect v c p = .ok v₁ → VG.connect v₁ c p = .ok v₁) ∧
    (∀ cn, gfind v.graph c = some cn → p ∈ cn.parents →
        VG.connect v c p = .ok v) :=
  ⟨VG.connect_succeeds hc hp,
   fun _ h => VG.connect_idem hq hc hp h,
   fun _ hcf hmem => VG.connect_ok_of_parent_mem hcf hp hmem⟩

/-- Witness for claim C9: connecting node 1 under the stem twice yields the
state of connecting once. -/
theorem claim_C9_connect_idempotent_witness :
    VG.connect ⟨[(0, ⟨[1, 2], [], 0⟩), (1, ⟨[], [0], 1⟩), (2, ⟨[], [0], 2⟩)], 0⟩ 2 1 =
        .ok ⟨[(0, ⟨[1, 2], [], 0⟩), (1, ⟨[2], [0], 1⟩), (2, ⟨[], [0, 1], 2⟩)], 0⟩ ∧
      VG.connect ⟨[(0, ⟨[1, 2], [], 0⟩), (1, ⟨[2], [0], 1⟩), (2, ⟨[], [0, 1], 2⟩)], 0⟩ 2 1 =
        .ok ⟨[(0, ⟨[1, 2], [], 0⟩), (1, ⟨[2], [0], 1⟩), (2, ⟨[], [0, 1], 2⟩)], 0⟩ :=
  ⟨by decide,
   (claim_C9_connect_idempotent
       ⟨[(0, ⟨[1, 2], [], 0⟩), (1, ⟨[], [0], 1⟩), (2, ⟨[], [0], 2⟩)], 0⟩ 2 1
       (by decide) (by decide) (by decide)).2.1
     ⟨[(0, ⟨[1, 2], [], 0⟩), (1, ⟨[2], [0], 1⟩), (2, ⟨[], [0, 1], 2⟩)], 0⟩
     (by decide)⟩

/-- Claim C10: the multi-parent create applied to a one-element parent
sequence is observably equivalent to the single-parent create — on every
state the two return identical values (same error in the same failing
states, identical resulting graph otherwise). -/
theorem claim_C10_create_overload_equiv (v : VG) (id p : Nat) :
    VG.create_one v id p = VG.create_many v id [p] :=
  VG.create_one_eq_many v id p

/-- Claim C8: for an absent id both `get_children_begin` and
`get_children_end` raise `VirusNotFound`; for a present id, iterating from
begin to end yields exactly the payload values of the identifiers in the
node's child set (payloads are materialized from identifiers), visited in
ascending identifier order, and each yielded child's parent set contains
the id.  The graph-side hypotheses hold in every reachable state. -/
theorem claim_C8_children_iteration (v : VG)
    (hs : sortedSets v.graph) (hcl : closedRefs v.graph)
    (hsym : symmRefs v.graph) (id : Nat) :
    (gfind v.graph id = none →
      VG.get_children_begin v id = .error .virusNotFound ∧
        VG.get_children_end v id = .error .virusNotFound) ∧
    (∀ n, gfind v.graph id = some n →
      VG.get_children_begin v id = .ok n.children ∧
        List.Sorted (· < ·) n.children ∧
        ∀ c ∈ n.children, ∃ cn, gfind v.graph c = some cn ∧ id ∈ cn.parents) := by
  constructor
  · intro h
    unfold VG.get_children_begin VG.get_children_end
    simp [h]
  · intro n hn
    refine ⟨?_, (sortedSets_find hs hn).1, ?_⟩
    · unfold VG.get_children_begin
      simp [hn]
    · intro c hc
      have hck : c ∈ keys v.graph := (closedRefs_find hcl hn).1 c hc
      obtain ⟨cn, hcn⟩ := gfind_some_of_mem_keys hck
      exact ⟨cn, hcn, (symmRefs_find hsym hn hcn).mp hc⟩

/-- Witness for claim C8 on a concrete two-child graph. -/
theorem claim_C8_children_iteration_witness :
    VG.get_children_begin
        ⟨[(0, ⟨[1, 2], [], 0⟩), (1, ⟨[], [0], 1⟩), (2, ⟨[], [0], 2⟩)], 0⟩ 0 =
      .ok [1, 2] ∧
    List.Sorted (· < ·) ([1, 2] : List Nat) ∧
    ∀ c ∈ ([1, 2] : List Nat),
      ∃ cn, gfind [(0, ⟨[1, 2], [], 0⟩), (1, ⟨[], [0], 1⟩), (2, ⟨[], [0], 2⟩)] c =
          some cn ∧ 0 ∈ cn.parents := by
  have h := (claim_C8_children_iteration
      ⟨[(0, ⟨[1, 2], [], 0⟩), (1, ⟨[], [0], 1⟩), (2, ⟨[], [0], 2⟩)], 0⟩
      (by decide) (by decide) (by decide) 0).2
      ⟨[1, 2], [], 0⟩ (by decide)
  exact h

/-! ## Structural lemmas for the removal induction -/

theorem gerase_sublist (k : Nat) (g : Graph) : (gerase k g).Sublist g := by
  induction g with
  | nil => simp [gerase]
  | cons e rest ih =>
    obtain ⟨k₁, n₁⟩ := e
    by_cases hk : k = k₁
    · simp [gerase, hk]
    · simp only [gerase, if_neg hk]
      exact ih.cons₂ (k₁, n₁)

theorem mem_gmodify {e₁ : Nat × Node} {k : Nat} {f : Node → Node} {g : Graph}
    (h : e₁ ∈ gmodify k f g) : e₁ ∈ g ∨ ∃ n, (k, n) ∈ g ∧ e₁ = (k, f n) := by
  induction g with
  | nil => simp [gmodify] at h
  | cons e rest ih =>
    obtain ⟨k₁, n₁⟩ := e
    by_cases hk : k = k₁
    · subst hk
      simp only [gmodify, if_pos rfl] at h
      rcases List.mem_cons.mp h with he | hm
      · exact Or.inr ⟨n₁, List.mem_cons_self _ _, he⟩
      · exact Or.inl (List.mem_cons_of_mem _ hm)
    · simp only [gmodify, if_neg hk] at h
      rcases List.mem_cons.mp h with he | hm
      · exact Or.inl (List.mem_cons.mpr (Or.inl he))
      · rcases ih hm with h1 | ⟨n, hn, he⟩
        · exact Or.inl (List.mem_cons_of_mem _ h1)
        · exact Or.inr ⟨n, List.mem_cons_of_mem _ hn, he⟩

theorem mem_keys_gerase {g : Graph} {x k : Nat} (hnd : keysNodup g) :
    x ∈ keys (gerase k g) ↔ x ∈ keys g ∧ x ≠ k := by
  constructor
  · intro hx
    refine ⟨(keys_gerase_sublist k g).mem hx, ?_⟩
    rintro rfl
    obtain ⟨n, hn⟩ := gfind_some_of_mem_keys hx
    rw [gfind_gerase_self hnd] at hn
    cases hn
  · rintro ⟨hx, hne⟩
    obtain ⟨n, hn⟩ := gfind_some_of_mem_keys hx
    have : gfind (gerase k g) x = some n := (gfind_gerase_ne hne).trans hn
    exact mem_keys_of_gfind this

theorem keysNodup_of_sublist {g1 g : Graph} (hs : (keys g1).Sublist (keys g))
    (hnd : keysNodup g) : keysNodup g1 := hnd.sublist hs

theorem nodeSub_refl (n : Node) : nodeSub n n :=
  ⟨rfl, List.Sublist.refl _, List.Sublist.refl _⟩

theorem nodeSub_trans {a b c : Node} (h1 : nodeSub a b) (h2 : nodeSub b c) :
    nodeSub a c :=
  ⟨h1.1.trans h2.1, h1.2.1.trans h2.2.1, h1.2.2.trans h2.2.2⟩

theorem graphSub_refl (g : Graph) : graphSub g g :=
  ⟨List.Sublist.refl _, fun k n1 h => ⟨n1, h, nodeSub_refl n1⟩⟩

theorem graphSub_trans {g2 g1 g : Graph} (h1 : graphSub g2 g1)
    (h2 : graphSub g1 g) : graphSub g2 g := by
  refine ⟨h1.1.trans h2.1, fun k n2 hf => ?_⟩
  obtain ⟨n1, hf1, hs1⟩ := h1.2 k n2 hf
  obtain ⟨n, hf0, hs0⟩ := h2.2 k n1 hf1
  exact ⟨n, hf0, nodeSub_trans hs1 hs0⟩

theorem graphSub_gmodify {g : Graph} {k : Nat} {f : Node → Node}
    (hf : ∀ n, nodeSub (f n) n) : graphSub (gmodify k f g) g := by
  refine ⟨by rw [keys_gmodify], fun k₂ n1 h => ?_⟩
  by_cases hk : k₂ = k
  · subst hk
    cases hg : gfind g k₂ with
    | none => rw [gmodify_of_absent hg, hg] at h; cases h
    | some n =>
      rw [gfind_gmodify_self hg] at h
      refine ⟨n, rfl, ?_⟩
      have h2 : f n = n1 := Option.some.inj h
      rw [← h2]
      exact hf n
  · rw [gfind_gmodify_ne hk] at h
    exact ⟨n1, h, nodeSub_refl n1⟩

theorem graphSub_gerase {g : Graph} {k : Nat} (hnd : keysNodup g) :
    graphSub (gerase k g) g := by
  refine ⟨keys_gerase_sublist k g, fun k₂ n1 h => ?_⟩
  by_cases hk : k₂ = k
  · subst hk
    rw [gfind_gerase_self hnd] at h
    cases h
  · rw [gfind_gerase_ne hk] at h
    exact ⟨n1, h, nodeSub_refl n1⟩

theorem eraseFromChildren_sub {vir : Nat} {ps : List Nat} {cg g1 : Graph}
    (h : VG.eraseFromChildren vir ps cg = some g1) : graphSub g1 cg := by
  induction ps generalizing cg with
  | nil =>
    unfold VG.eraseFromChildren at h
    exact Option.some.inj h ▸ graphSub_refl cg
  | cons p rest ih =>
    unfold VG.eraseFromChildren at h
    by_cases hc : containsKey cg p
    · rw [if_pos hc] at h
      exact graphSub_trans (ih h)
        (graphSub_gmodify fun n =>
          ⟨rfl, eraseSet_sublist _ _, List.Sublist.refl _⟩)
    · rw [if_neg hc] at h
      cases h

theorem childLoopF_sub {rh : Graph → Nat → Option Graph}
    (hsub : ∀ cg c g1, keysNodup cg → rh cg c = some g1 → graphSub g1 cg)
    {vir : Nat} : ∀ {cs : List Nat} {cg out : Graph}, keysNodup cg →
    VG.childLoopF rh vir cg cs = some out → graphSub out cg := by
  intro cs
  induction cs with
  | nil =>
    intro cg out hnd h
    unfold VG.childLoopF at h
    exact Option.some.inj h ▸ graphSub_refl cg
  | cons c rest ih =>
    intro cg out hnd h
    unfold VG.childLoopF at h
    cases hc : gfind cg c with
    | none => simp [hc] at h
    | some cn =>
      simp only [hc] at h
      by_cases hl : cn.parents.length = 1
      · simp only [if_pos hl] at h
        cases hrh : rh cg c with
        | none => simp [hrh] at h
        | some cg1 =>
          simp only [hrh] at h
          have hs1 := hsub cg c cg1 hnd hrh
          exact graphSub_trans (ih (keysNodup_of_sublist hs1.1 hnd) h) hs1
      · simp only [if_neg hl] at h
        exact graphSub_trans
          (ih (by rw [keysNodup, keys_gmodify]; exact hnd) h)
          (graphSub_gmodify fun n =>
            ⟨rfl, List.Sublist.refl _, eraseSet_sublist _ _⟩)

theorem removeHelper_sub {live : Graph} : ∀ {fuel : Nat} {cg : Graph} {j : Nat}
    {g1 : Graph}, keysNodup cg → VG.removeHelper live fuel cg j = some g1 →
    graphSub g1 cg := by
  intro fuel
  induction fuel with
  | zero => intro cg j g1 _ h; cases h
  | succ fuel ih =>
    intro cg j g1 hnd h
    unfold VG.removeHelper at h
    cases hj : gfind cg j with
    | none => simp [hj] at h
    | some node =>
      cases hl : gfind live j with
      | none => simp [hj, hl] at h
      | some ln =>
        simp only [hj, hl] at h
        cases hef : VG.eraseFromChildren ln.virus node.parents cg with
        | none => simp [hef] at h
        | some cg1 =>
          simp only [hef] at h
          cases hcl : VG.childLoopF (VG.removeHelper live fuel) ln.virus cg1
              node.children with
          | none => simp [hcl] at h
          | some cg2 =>
            simp only [hcl, Option.some.injEq] at h
            have hs1 := eraseFromChildren_sub hef
            have hnd1 : keysNodup cg1 := keysNodup_of_sublist hs1.1 hnd
            have hs2 := childLoopF_sub (fun cg c g1 hn hr => ih hn hr) hnd1 hcl
            have hnd2 : keysNodup cg2 := keysNodup_of_sublist hs2.1 hnd1
            subst h
            exact graphSub_trans (graphSub_gerase hnd2) (graphSub_trans hs2 hs1)

/-! ## Exact effect of the parent-detach loop -/

theorem eraseFromChildren_spec {vir : Nat} : ∀ {ps : List Nat} {cg g1 : Graph},
    ps.Nodup → VG.eraseFromChildren vir ps cg = some g1 →
    ∀ k, gfind g1 k =
      match gfind cg k with
      | none => none
      | some n =>
        some (if k ∈ ps then { n with children := eraseSet vir n.children } else n) := by
  intro ps
  induction ps with
  | nil =>
    intro cg g1 _ h k
    unfold VG.eraseFromChildren at h
    have h1 : cg = g1 := Option.some.inj h
    subst h1
    cases hg : gfind cg k with
    | none => rfl
    | some n => simp
  | cons p rest ih =>
    intro cg g1 hnd h k
    unfold VG.eraseFromChildren at h
    by_cases hc : containsKey cg p
    · rw [if_pos hc] at h
      rcases List.nodup_cons.mp hnd with ⟨hpr, hndr⟩
      have hspec := ih hndr h k
      obtain ⟨n0, hn0⟩ := Option.isSome_iff_exists.mp hc
      by_cases hk : k = p
      · subst hk
        rw [gfind_gmodify_self hn0] at hspec
        simp only [if_pos (List.mem_cons_self k rest)] at hspec ⊢
        rw [hn0]
        simp only [hspec, if_neg hpr]
      · rw [gfind_gmodify_ne hk] at hspec
        rw [hspec]
        cases hg : gfind cg k with
        | none => rfl
        | some n =>
          simp only [List.mem_cons]
          by_cases hkr : k ∈ rest
          · simp [hkr, hk]
          · simp [hkr, hk]
    · rw [if_neg hc] at h
      cases h

/-! ## Stem safety and parent nonemptiness through removal (Phase B) -/

theorem eraseSet_ne_nil {x : Nat} {l : List Nat}
    (h1 : l ≠ []) (h2 : l.length ≠ 1) : eraseSet x l ≠ [] := by
  have h3 : 2 ≤ l.length := by
    rcases l with _ | ⟨a, _ | ⟨b, t⟩⟩
    · exact absurd rfl h1
    · exact absurd rfl h2
    · simp
  have h4 := length_eraseSet_ge x l
  intro h5
  rw [h5] at h4
  simp at h4
  omega

theorem eraseFromChildren_stemSafe {vir stem : Nat} : ∀ {ps : List Nat} {cg cg1 : Graph},
    VG.eraseFromChildren vir ps cg = some cg1 →
    (∀ e ∈ cg, stem ∉ (Prod.snd e).children) →
    (∀ e ∈ cg, Prod.fst e ≠ stem → (Prod.snd e).parents ≠ []) →
    (∀ e ∈ cg1, stem ∉ (Prod.snd e).children) ∧
    (∀ e ∈ cg1, Prod.fst e ≠ stem → (Prod.snd e).parents ≠ []) ∧
    (∀ sn, gfind cg stem = some sn → ∃ sn1, gfind cg1 stem = some sn1 ∧
      sn1.parents = sn.parents) := by
  intro ps
  induction ps with
  | nil =>
    intro cg cg1 h hch hpar
    unfold VG.eraseFromChildren at h
    have h1 : cg = cg1 := Option.some.inj h
    subst h1
    exact ⟨hch, hpar, fun sn hsn => ⟨sn, hsn, rfl⟩⟩
  | cons p rest ih =>
    intro cg cg1 h hch hpar
    unfold VG.eraseFromChildren at h
    by_cases hc : containsKey cg p
    · rw [if_pos hc] at h
      have hch1 : ∀ e ∈ gmodify p
          (fun n => { n with children := eraseSet vir n.children }) cg,
          stem ∉ (Prod.snd e).children := by
        intro e he
        rcases mem_gmodify he with h1 | ⟨n, hn, h1⟩
        · exact hch e h1
        · subst h1
          intro hmem
          exact hch (p, n) hn (mem_of_mem_eraseSet hmem)
      have hpar1 : ∀ e ∈ gmodify p
          (fun n => { n with children := eraseSet vir n.children }) cg,
          Prod.fst e ≠ stem → (Prod.snd e).parents ≠ [] := by
        intro e he hne
        rcases mem_gmodify he with h1 | ⟨n, hn, h1⟩
        · exact hpar e h1 hne
        · subst h1
          exact hpar (p, n) hn hne
      obtain ⟨hch2, hpar2, hstem2⟩ := ih h hch1 hpar1
      refine ⟨hch2, hpar2, fun sn hsn => ?_⟩
      by_cases hps : stem = p
      · subst hps
        obtain ⟨sn1, hsn1, hp1⟩ :=
          hstem2 { sn with children := eraseSet vir sn.children }
            (gfind_gmodify_self hsn)
        exact ⟨sn1, hsn1, hp1⟩
      · exact hstem2 sn ((gfind_gmodify_ne hps).trans hsn)
    · rw [if_neg hc] at h
      cases h

theorem childLoopF_stemSafe {rh : Graph → Nat → Option Graph} {stem vir : Nat}
    (hrh : ∀ cg c g1, rh cg c = some g1 →
      (∀ e ∈ cg, stem ∉ (Prod.snd e).children) →
      (∀ e ∈ cg, Prod.fst e ≠ stem → (Prod.snd e).parents ≠ []) →
      c ≠ stem → keysNodup cg →
      (∀ e ∈ g1, stem ∉ (Prod.snd e).children) ∧
      (∀ e ∈ g1, Prod.fst e ≠ stem → (Prod.snd e).parents ≠ []) ∧
      (∀ sn, gfind cg stem = some sn → ∃ sn1, gfind g1 stem = some sn1 ∧
        sn1.parents = sn.parents))
    (hsub : ∀ cg c g1, keysNodup cg → rh cg c = some g1 → graphSub g1 cg) :
    ∀ {cs : List Nat} {cg out : Graph},
    VG.childLoopF rh vir cg cs = some out →
    (∀ e ∈ cg, stem ∉ (Prod.snd e).children) →
    (∀ e ∈ cg, Prod.fst e ≠ stem → (Prod.snd e).parents ≠ []) →
    stem ∉ cs → keysNodup cg →
    (∀ e ∈ out, stem ∉ (Prod.snd e).children) ∧
    (∀ e ∈ out, Prod.fst e ≠ stem → (Prod.snd e).parents ≠ []) ∧
    (∀ sn, gfind cg stem = some sn → ∃ sn1, gfind out stem = some sn1 ∧
      sn1.parents = sn.parents) := by
  intro cs
  induction cs with
  | nil =>
    intro cg out h hch hpar _ _
    unfold VG.childLoopF at h
    have h1 : cg = out := Option.some.inj h
    subst h1
    exact ⟨hch, hpar, fun sn hsn => ⟨sn, hsn, rfl⟩⟩
  | cons c rest ih =>
    intro cg out h hch hpar hcs hnd
    have hcstem : c ≠ stem := fun hh => hcs (hh ▸ List.mem_cons_self c rest)
    have hrstem : stem ∉ rest := fun hh => hcs (List.mem_cons_of_mem c hh)
    unfold VG.childLoopF at h
    cases hc : gfind cg c with
    | none => simp [hc] at h
    | some cn =>
      simp only [hc] at h
      by_cases hl : cn.parents.length = 1
      · simp only [if_pos hl] at h
        cases hr : rh cg c with
        | none => simp [hr] at h
        | some cg1 =>
          simp only [hr] at h
          obtain ⟨hch1, hpar1, hstem1⟩ := hrh cg c cg1 hr hch hpar hcstem hnd
          have hnd1 : keysNodup cg1 :=
            keysNodup_of_sublist (hsub cg c cg1 hnd hr).1 hnd
          obtain ⟨hch2, hpar2, hstem2⟩ := ih h hch1 hpar1 hrstem hnd1
          refine ⟨hch2, hpar2, fun sn hsn => ?_⟩
          obtain ⟨sn1, hsn1, hp1⟩ := hstem1 sn hsn
          obtain ⟨sn2, hsn2, hp2⟩ := hstem2 sn1 hsn1
          exact ⟨sn2, hsn2, hp2.trans hp1⟩
      · simp only [if_neg hl] at h
        have hch1 : ∀ e ∈ gmodify c
            (fun n => { n with parents := eraseSet vir n.parents }) cg,
            stem ∉ (Prod.snd e).children := by
          intro e he
          rcases mem_gmodify he with h1 | ⟨n, hn, h1⟩
          · exact hch e h1
          · subst h1; exact hch (c, n) hn
        have hpar1 : ∀ e ∈ gmodify c
            (fun n => { n with parents := eraseSet vir n.parents }) cg,
            Prod.fst e ≠ stem → (Prod.snd e).parents ≠ [] := by
          intro e he hne
          rcases mem_gmodify he with h1 | ⟨n, hn, h1⟩
          · exact hpar e h1 hne
          · subst h1
            have hn0 : gfind cg c = some n := gfind_of_mem hnd hn
            rw [hc] at hn0
            have hcn : cn = n := Option.some.inj hn0
            rw [hcn] at hl
            exact eraseSet_ne_nil (hpar (c, n) hn hcstem) hl
        have hnd1 : keysNodup (gmodify c
            (fun n => { n with parents := eraseSet vir n.parents }) cg) := by
          rw [keysNodup, keys_gmodify]; exact hnd
        obtain ⟨hch2, hpar2, hstem2⟩ := ih h hch1 hpar1 hrstem hnd1
        refine ⟨hch2, hpar2, fun sn hsn => ?_⟩
        exact hstem2 sn ((gfind_gmodify_ne (Ne.symm hcstem)).trans hsn)

theorem removeHelper_stemSafe {live : Graph} {stem : Nat} :
    ∀ {fuel : Nat} {cg : Graph} {j : Nat} {g1 : Graph},
    VG.removeHelper live fuel cg j = some g1 →
    (∀ e ∈ cg, stem ∉ (Prod.snd e).children) →
    (∀ e ∈ cg, Prod.fst e ≠ stem → (Prod.snd e).parents ≠ []) →
    j ≠ stem → keysNodup cg →
    (∀ e ∈ g1, stem ∉ (Prod.snd e).children) ∧
    (∀ e ∈ g1, Prod.fst e ≠ stem → (Prod.snd e).parents ≠ []) ∧
    (∀ sn, gfind cg stem = some sn → ∃ sn1, gfind g1 stem = some sn1 ∧
      sn1.parents = sn.parents) := by
  intro fuel
  induction fuel with
  | zero => intro cg j g1 h; cases h
  | succ fuel ih =>
    intro cg j g1 h hch hpar hj hnd
    unfold VG.removeHelper at h
    cases hjf : gfind cg j with
    | none => simp [hjf] at h
    | some node =>
      cases hlf : gfind live j with
      | none => simp [hjf, hlf] at h
      | some ln =>
        simp only [hjf, hlf] at h
        cases hef : VG.eraseFromChildren ln.virus node.parents cg with
        | none => simp [hef] at h
        | some cg1 =>
          simp only [hef] at h
          cases hcl : VG.childLoopF (VG.removeHelper live fuel) ln.virus cg1
              node.children with
          | none => simp [hcl] at h
          | some cg2 =>
            simp only [hcl, Option.some.injEq] at h
            subst h
            obtain ⟨hch1, hpar1, hstem1⟩ := eraseFromChildren_stemSafe hef hch hpar
            have hnd1 : keysNodup cg1 :=
              keysNodup_of_sublist (eraseFromChildren_sub hef).1 hnd
            have hstemcs : stem ∉ node.children := hch (j, node) (mem_of_gfind hjf)
            obtain ⟨hch2, hpar2, hstem2⟩ := childLoopF_stemSafe
              (fun cg c g1 hr hc1 hp1 hc2 hn1 => ih hr hc1 hp1 hc2 hn1)
              (fun cg c g1 hn1 hr => removeHelper_sub hn1 hr)
              hcl hch1 hpar1 hstemcs hnd1
            refine ⟨?_, ?_, ?_⟩
            · intro e he
              exact hch2 e ((gerase_sublist j cg2).mem he)
            · intro e he
              exact hpar2 e ((gerase_sublist j cg2).mem he)
            · intro sn hsn
              obtain ⟨sn1, hsn1, hp1⟩ := hstem1 sn hsn
              obtain ⟨sn2, hsn2, hp2⟩ := hstem2 sn1 hsn1
              exact ⟨sn2, (gfind_gerase_ne (fun hh => hj hh.symm)).trans hsn2,
                hp2.trans hp1⟩

/-! ## Filter utilities for the induced-subgraph argument -/

theorem mem_filterP {P : Nat → Prop} [DecidablePred P] {l : List Nat} {x : Nat} :
    x ∈ l.filter (fun y => decide (P y)) ↔ x ∈ l ∧ P x := by
  simp [List.mem_filter]

theorem filter_filter_pq (p q : Nat → Bool) (l : List Nat) :
    (l.filter q).filter p = l.filter (fun a => p a && q a) := by
  induction l with
  | nil => rfl
  | cons a t ih =>
    by_cases hq : q a = true
    · rw [List.filter_cons_of_pos hq]
      by_cases hp : p a = true
      · rw [List.filter_cons_of_pos hp, List.filter_cons_of_pos (by simp [hp, hq]), ih]
      · rw [List.filter_cons_of_neg (by simp [hp]),
          List.filter_cons_of_neg (by simp [hp]), ih]
    · rw [List.filter_cons_of_neg (by simp [hq]),
        List.filter_cons_of_neg (by simp [hq]), ih]

theorem filter_congr_of_iff {P Q : Nat → Prop} [DecidablePred P] [DecidablePred Q]
    {l : List Nat} (h : ∀ x ∈ l, P x ↔ Q x) :
    l.filter (fun y => decide (P y)) = l.filter (fun y => decide (Q y)) := by
  apply List.filter_congr
  intro x hx
  exact decide_eq_decide.mpr (h x hx)

theorem entry_unique {g : Graph} {k : Nat} {a b : Node} (hnd : keysNodup g)
    (ha : (k, a) ∈ g) (hb : (k, b) ∈ g) : a = b := by
  have h1 := gfind_of_mem hnd ha
  have h2 := gfind_of_mem hnd hb
  rw [h1] at h2
  exact Option.some.inj h2

theorem mem_entry_iff_gfind {g : Graph} {e : Nat × Node} (hnd : keysNodup g) :
    e ∈ g ↔ gfind g e.1 = some e.2 := by
  constructor
  · intro h
    exact gfind_of_mem hnd h
  · intro h
    have := mem_of_gfind h
    exact this

theorem mem_keys_of_mem {g : Graph} {e : Nat × Node} (h : e ∈ g) :
    e.1 ∈ keys g := List.mem_map.mpr ⟨e, h, rfl⟩

/-! ## Invariant preservation for the kept branch of the child loop -/

theorem removeInv_eraseParent {cg : Graph} {J : List Nat} {j c : Nat} {cn : Node}
    (hinv : removeInv cg J) (hc : gfind cg c = some cn) (hjJ : j ∈ J) :
    removeInv (gmodify c (fun n => { n with parents := eraseSet j n.parents }) cg) J := by
  obtain ⟨hnd, hnds, hsym, hcl, hdet⟩ := hinv
  have hndm : keysNodup (gmodify c
      (fun n => { n with parents := eraseSet j n.parents }) cg) := by
    rw [keysNodup, keys_gmodify]; exact hnd
  have horig : ∀ e ∈ gmodify c
      (fun n => { n with parents := eraseSet j n.parents }) cg,
      ∃ o, gfind cg e.1 = some o ∧ (Prod.snd e).children = o.children ∧
        ((Prod.snd e).parents = o.parents ∨
          (Prod.snd e).parents = eraseSet j o.parents) := by
    intro e he
    have hf := gfind_of_mem hndm he
    by_cases hk : e.1 = c
    · rw [hk] at hf
      rw [gfind_gmodify_self hc] at hf
      have he2 : e.2 = { cn with parents := eraseSet j cn.parents } :=
        (Option.some.inj hf).symm
      exact ⟨cn, hk ▸ hc, by rw [he2], Or.inr (by rw [he2])⟩
    · rw [gfind_gmodify_ne hk] at hf
      exact ⟨e.2, hf, rfl, Or.inl rfl⟩
  refine ⟨hndm, ?_, ?_, ?_, ?_⟩
  · intro e he
    obtain ⟨o, ho, hch, hpar⟩ := horig e he
    have hmo := mem_of_gfind ho
    rcases hpar with hpar | hpar
    · exact ⟨hch ▸ (hnds (e.1, o) hmo).1, hpar ▸ (hnds (e.1, o) hmo).2⟩
    · exact ⟨hch ▸ (hnds (e.1, o) hmo).1,
        hpar ▸ ((hnds (e.1, o) hmo).2.sublist (eraseSet_sublist j o.parents))⟩
  · intro e1 he1 e2 he2 h1J h2J
    obtain ⟨o1, ho1, hch1, hpar1⟩ := horig e1 he1
    obtain ⟨o2, ho2, hch2, hpar2⟩ := horig e2 he2
    have hm1 := mem_of_gfind ho1
    have hm2 := mem_of_gfind ho2
    have hbase := hsym (e1.1, o1) hm1 (e2.1, o2) hm2 h1J h2J
    rw [hch1]
    rcases hpar2 with hpar2 | hpar2
    · rw [hpar2]; exact hbase
    · rw [hpar2]
      rw [mem_eraseSet ((hnds (e2.1, o2) hm2).2)]
      have hne : e1.1 ≠ j := fun hh => h1J (hh ▸ hjJ)
      constructor
      · intro hmem
        exact ⟨hbase.mp hmem, hne⟩
      · intro hmem
        exact hbase.mpr hmem.1
  · intro e he hJ
    obtain ⟨o, ho, hch, hpar⟩ := horig e he
    have hmo := mem_of_gfind ho
    have hbase := hcl (e.1, o) hmo hJ
    rw [keys_gmodify]
    refine ⟨hch ▸ hbase.1, ?_⟩
    rcases hpar with hpar | hpar
    · exact hpar ▸ hbase.2
    · rw [hpar]
      intro p hp
      exact hbase.2 p (mem_of_mem_eraseSet hp)
  · intro e he hJ x hx
    obtain ⟨o, ho, hch, _⟩ := horig e he
    exact hch ▸ hdet (e.1, o) (mem_of_gfind ho) hJ x hx

/-! ## Invariant preservation for the detach step of `remove_helper` -/

theorem keys_mem_eraseFromChildren {vir : Nat} {ps : List Nat} {cg cg1 : Graph}
    (hnd : ps.Nodup) (hef : VG.eraseFromChildren vir ps cg = some cg1) (k : Nat) :
    (k ∈ keys cg1 ↔ k ∈ keys cg) := by
  have hspec := eraseFromChildren_spec hnd hef k
  constructor
  · intro hk
    obtain ⟨n, hn⟩ := gfind_some_of_mem_keys hk
    rw [hn] at hspec
    cases hg : gfind cg k with
    | none => rw [hg] at hspec; cases hspec
    | some m => exact mem_keys_of_gfind hg
  · intro hk
    obtain ⟨n, hn⟩ := gfind_some_of_mem_keys hk
    rw [hn] at hspec
    exact mem_keys_of_gfind hspec

theorem detach_orig {cg cg1 : Graph} {j : Nat} {jn : Node}
    (hnd : keysNodup cg) (hnds : nodupSets cg) (hjn : gfind cg j = some jn)
    (hef : VG.eraseFromChildren j jn.parents cg = some cg1) :
    ∀ e ∈ cg1, ∃ o, gfind cg e.1 = some o ∧ (Prod.snd e).parents = o.parents ∧
      (Prod.snd e).virus = o.virus ∧
      (((Prod.snd e).children = o.children ∧ e.1 ∉ jn.parents) ∨
        ((Prod.snd e).children = eraseSet j o.children ∧ e.1 ∈ jn.parents)) := by
  have hndp : jn.parents.Nodup := (hnds (j, jn) (mem_of_gfind hjn)).2
  have hnd1 : keysNodup cg1 := keysNodup_of_sublist (eraseFromChildren_sub hef).1 hnd
  intro e he
  have hf := gfind_of_mem hnd1 he
  have hspec := eraseFromChildren_spec hndp hef e.1
  rw [hf] at hspec
  cases hg : gfind cg e.1 with
  | none => simp [hg] at hspec
  | some o =>
    simp only [hg] at hspec
    by_cases hps : e.1 ∈ jn.parents
    · rw [if_pos hps] at hspec
      have he2 := Option.some.inj hspec
      exact ⟨o, rfl, by rw [he2], by rw [he2], Or.inr ⟨by rw [he2], hps⟩⟩
    · rw [if_neg hps] at hspec
      have he2 := Option.some.inj hspec
      exact ⟨o, rfl, by rw [he2], by rw [he2], Or.inl ⟨by rw [he2], hps⟩⟩

theorem removeInv_detach {cg cg1 : Graph} {J : List Nat} {j : Nat} {jn : Node}
    (hinv : removeInv cg J) (hjn : gfind cg j = some jn)
    (hself : j ∈ J → ∀ x ∈ jn.children, x ∉ J)
    (hef : VG.eraseFromChildren j jn.parents cg = some cg1) :
    removeInv cg1 (j :: J) := by
  obtain ⟨hnd, hnds, hsym, hcl, hdet⟩ := hinv
  have hnd1 : keysNodup cg1 := keysNodup_of_sublist (eraseFromChildren_sub hef).1 hnd
  have horig := detach_orig hnd hnds hjn hef
  have hndp : jn.parents.Nodup := (hnds (j, jn) (mem_of_gfind hjn)).2
  have hkeys := keys_mem_eraseFromChildren hndp hef
  refine ⟨hnd1, ?_, ?_, ?_, ?_⟩
  · intro e he
    obtain ⟨o, ho, hpar, _, hch⟩ := horig e he
    have hmo := mem_of_gfind ho
    rcases hch with ⟨hch, _⟩ | ⟨hch, _⟩
    · exact ⟨hch ▸ (hnds (e.1, o) hmo).1, hpar ▸ (hnds (e.1, o) hmo).2⟩
    · exact ⟨hch ▸ ((hnds (e.1, o) hmo).1.sublist (eraseSet_sublist j o.children)),
        hpar ▸ (hnds (e.1, o) hmo).2⟩
  · intro e1 he1 e2 he2 h1J h2J
    have h1j : e1.1 ≠ j := fun hh => h1J (hh ▸ List.mem_cons_self j J)
    have h2j : e2.1 ≠ j := fun hh => h2J (hh ▸ List.mem_cons_self j J)
    have h1J2 : e1.1 ∉ J := fun hh => h1J (List.mem_cons_of_mem j hh)
    have h2J2 : e2.1 ∉ J := fun hh => h2J (List.mem_cons_of_mem j hh)
    obtain ⟨o1, ho1, hpar1, _, hch1⟩ := horig e1 he1
    obtain ⟨o2, ho2, hpar2, _, hch2⟩ := horig e2 he2
    have hm1 := mem_of_gfind ho1
    have hm2 := mem_of_gfind ho2
    have hbase := hsym (e1.1, o1) hm1 (e2.1, o2) hm2 h1J2 h2J2
    rw [hpar2]
    rcases hch1 with ⟨hch1, _⟩ | ⟨hch1, _⟩
    · rw [hch1]; exact hbase
    · rw [hch1, mem_eraseSet ((hnds (e1.1, o1) hm1).1)]
      constructor
      · intro hmem
        exact hbase.mp hmem.1
      · intro hmem
        exact ⟨hbase.mpr hmem, h2j⟩
  · intro e he hJ
    obtain ⟨o, ho, hpar, _, hch⟩ := horig e he
    have hmo := mem_of_gfind ho
    have hJ2 : e.1 ∉ J := fun hh => hJ (List.mem_cons_of_mem j hh)
    have hbase := hcl (e.1, o) hmo hJ2
    constructor
    · intro c hc
      rcases hch with ⟨hch, _⟩ | ⟨hch, _⟩
      · exact (hkeys c).mpr (hbase.1 c (hch ▸ hc))
      · exact (hkeys c).mpr (hbase.1 c (mem_of_mem_eraseSet (hch ▸ hc)))
    · intro p hp
      exact (hkeys p).mpr (hbase.2 p (hpar ▸ hp))
  · intro e he hJ x hx hxc
    obtain ⟨o, ho, hpar, _, hch⟩ := horig e he
    have hmo := mem_of_gfind ho
    have hJ2 : e.1 ∉ J := fun hh => hJ (List.mem_cons_of_mem j hh)
    rcases List.mem_cons.mp hx with rfl | hxJ
    · rcases hch with ⟨hch, hps⟩ | ⟨hch, _⟩
      · rw [hch] at hxc
        by_cases hjJ : x ∈ J
        · exact hdet (e.1, o) hmo hJ2 x hjJ hxc
        · have := hsym (e.1, o) hmo (x, jn) (mem_of_gfind hjn) hJ2 hjJ
          exact hps (this.mp hxc)
      · rw [hch] at hxc
        exact not_mem_eraseSet ((hnds (e.1, o) hmo).1) hxc
    · rcases hch with ⟨hch, _⟩ | ⟨hch, _⟩
      · exact hdet (e.1, o) hmo hJ2 x hxJ (hch ▸ hxc)
      · exact hdet (e.1, o) hmo hJ2 x hxJ (mem_of_mem_eraseSet (hch ▸ hxc))

theorem filter_alive_mono {A B : List Nat} (hAB : ∀ x, x ∈ A → x ∈ B)
    (l : List Nat) :
    (l.filter (fun x => decide (x ∈ B))).filter (fun x => decide (x ∈ A)) =
      l.filter (fun x => decide (x ∈ A)) := by
  rw [filter_filter_pq]
  apply List.filter_congr
  intro x _
  by_cases hxA : x ∈ A
  · simp [hxA, hAB x hxA]
  · simp [hxA]

theorem filter_aliveNe_mono {A B : List Nat} {j : Nat}
    (hAB : ∀ x, x ∈ A → x ∈ B) (l : List Nat) :
    (l.filter (fun x => decide (x ∈ B))).filter
        (fun x => decide (x ∈ A ∧ x ≠ j)) =
      l.filter (fun x => decide (x ∈ A ∧ x ≠ j)) := by
  rw [filter_filter_pq]
  apply List.filter_congr
  intro x _
  by_cases hxA : x ∈ A ∧ x ≠ j
  · simp [hxA, hAB x hxA.1]
  · simp [hxA]

theorem filter_aliveNe_eraseSet {A : List Nat} {j : Nat} {l : List Nat}
    (hnd : l.Nodup) :
    (eraseSet j l).filter (fun x => decide (x ∈ A ∧ x ≠ j)) =
      l.filter (fun x => decide (x ∈ A ∧ x ≠ j)) := by
  rw [eraseSet_eq_filter hnd, filter_filter_pq]
  apply List.filter_congr
  intro x _
  by_cases h1 : x ∈ A ∧ x ≠ j
  · simp [h1, h1.2]
  · simp [h1]

/-! ## The child-loop contract -/

theorem childLoopF_contract {rh : Graph → Nat → Option Graph}
    (hsub : ∀ cg c g1, keysNodup cg → rh cg c = some g1 → graphSub g1 cg)
    (hrh : ∀ cg J c g1, helperPre cg J c → rh cg c = some g1 →
      helperPost cg J c g1) :
    ∀ {cs : List Nat} {cg : Graph} {J : List Nat} {j : Nat} {out : Graph},
    loopPre cg J j cs → VG.childLoopF rh j cg cs = some out →
    loopPost cg J j out := by
  intro cs
  induction cs with
  | nil =>
    intro cg J j out hpre h
    obtain ⟨⟨hnd, hnds, hsym, hcl, hdet⟩, hjJ, _, hlist, hlch, hown⟩ := hpre
    unfold VG.childLoopF at h
    have h1 : cg = out := Option.some.inj h
    subst h1
    refine ⟨?_, ?_, ?_, hlist, hnd, hnds, hsym, hcl, hdet⟩
    · intro k n1 hk hkJ
      refine ⟨n1, hk, rfl, ?_, ?_⟩
      · symm
        apply List.filter_eq_self.mpr
        intro x hx
        exact decide_eq_true_eq.mpr ((hcl (k, n1) (mem_of_gfind hk) hkJ).1 x hx)
      · symm
        apply List.filter_eq_self.mpr
        intro x hx
        refine decide_eq_true_eq.mpr
          ⟨(hcl (k, n1) (mem_of_gfind hk) hkJ).2 x hx, ?_⟩
        rintro rfl
        exact List.not_mem_nil k (hlist (k, n1) (mem_of_gfind hk) hkJ hx)
    · intro k n1 hk _ _
      exact ⟨n1, hk, rfl, rfl, List.Sublist.refl _, fun y hy _ => hy⟩
    · intro n1 hj
      exact ⟨n1, hj, rfl, List.Sublist.refl _, fun y hy _ => hy⟩
  | cons c rest ih =>
    intro cg J j out hpre h
    obtain ⟨hinv, hjJ, hcsJ, hlist, hlch, hown⟩ := hpre
    obtain ⟨hnd, hnds, hsym, hcl, hdet⟩ := hinv
    unfold VG.childLoopF at h
    cases hc : gfind cg c with
    | none => simp [hc] at h
    | some cn =>
      simp only [hc] at h
      by_cases hl : cn.parents.length = 1
      · -- target branch: the child is removed recursively
        simp only [if_pos hl] at h
        cases hr : rh cg c with
        | none => simp [hr] at h
        | some cg1 =>
          simp only [hr] at h
          have hpreH : helperPre cg J c := by
            refine ⟨⟨hnd, hnds, hsym, hcl, hdet⟩, cn, hc, ?_⟩
            intro hcJ
            have hcj : c = j := hcsJ c (List.mem_cons_self c rest) hcJ
            subst hcj
            exact ⟨hown cn hc, fun e he heJ hjp => hlch e he heJ hjp cn hc⟩
          obtain ⟨hdead, hC, hD, hinv1⟩ := hrh cg J c cg1 hpreH hr
          obtain ⟨hnd1, hnds1, hsym1, hcl1, hdet1⟩ := hinv1
          have hsubr := hsub cg c cg1 hnd hr
          have hpre1 : loopPre cg1 J j rest := by
            refine ⟨⟨hnd1, hnds1, hsym1, hcl1, hdet1⟩, hjJ,
              fun x hx hxJ => hcsJ x (List.mem_cons_of_mem c hx) hxJ, ?_, ?_, ?_⟩
            · intro e he heJ hjp
              have hf1 := gfind_of_mem hnd1 he
              obtain ⟨n, hn, _, _, hpar⟩ := hC e.1 e.2 hf1 heJ
              have hjp0 : j ∈ n.parents := by
                rw [hpar] at hjp
                exact (mem_filterP.mp hjp).1
              have hmem := hlist (e.1, n) (mem_of_gfind hn) heJ hjp0
              rcases List.mem_cons.mp hmem with rfl | hmem2
              · exact absurd (mem_keys_of_mem he) hdead
              · exact hmem2
            · intro e he heJ hjp jn1 hjn1
              obtain ⟨jn0, hjn0, _, _, hsubl, hkeep⟩ := hD j jn1 hjn1 hjJ
              have hf1 := gfind_of_mem hnd1 he
              obtain ⟨n, hn, _, _, hpar⟩ := hC e.1 e.2 hf1 heJ
              have hjp0 : j ∈ n.parents := by
                rw [hpar] at hjp
                exact (mem_filterP.mp hjp).1
              have hmemc := hlch (e.1, n) (mem_of_gfind hn) heJ hjp0 jn0 hjn0
              exact hkeep e.1 hmemc (mem_keys_of_mem he)
            · intro jn1 hjn1 x hx
              obtain ⟨jn0, hjn0, _, _, hsubl, _⟩ := hD j jn1 hjn1 hjJ
              exact hown jn0 hjn0 x (hsubl.mem hx)
          obtain ⟨hC2, hD2, hDj2, hlist2, hinv2⟩ := ih hpre1 h
          have hsubO := childLoopF_sub hsub hnd1 h
          have hmono : ∀ x, x ∈ keys out → x ∈ keys cg1 :=
            fun x hx => hsubO.1.mem hx
          refine ⟨?_, ?_, ?_, hlist2, hinv2⟩
          · intro k n1 hk hkJ
            obtain ⟨m, hm, hv2, hch2, hpar2⟩ := hC2 k n1 hk hkJ
            obtain ⟨n, hn, hv1, hch1, hpar1⟩ := hC k m hm hkJ
            refine ⟨n, hn, hv2.trans hv1, ?_, ?_⟩
            · rw [hch2, hch1, filter_alive_mono hmono]
            · rw [hpar2, hpar1, filter_aliveNe_mono hmono]
          · intro k n1 hk hkJ hkj
            obtain ⟨m, hm, hv2, hpar2, hsubl2, hkeep2⟩ := hD2 k n1 hk hkJ hkj
            obtain ⟨n, hn, hv1, hpar1, hsubl1, hkeep1⟩ := hD k m hm hkJ
            refine ⟨n, hn, hv2.trans hv1, hpar2.trans hpar1,
              hsubl2.trans hsubl1, ?_⟩
            intro y hy hyk
            exact hkeep2 y (hkeep1 y hy (hmono y hyk)) hyk
          · intro n1 hj
            obtain ⟨m, hm, hv2, hsubl2, hkeep2⟩ := hDj2 n1 hj
            obtain ⟨n, hn, hv1, _, hsubl1, hkeep1⟩ := hD j m hm hjJ
            refine ⟨n, hn, hv2.trans hv1, hsubl2.trans hsubl1, ?_⟩
            intro y hy hyk
            exact hkeep2 y (hkeep1 y hy (hmono y hyk)) hyk
      · -- kept branch: the target is erased from the child's parent set
        simp only [if_neg hl] at h
        have hinvm := removeInv_eraseParent ⟨hnd, hnds, hsym, hcl, hdet⟩ hc hjJ
        obtain ⟨hndm, hndsm, hsymm1, hclm, hdetm⟩ := hinvm
        have hgm : ∀ k, k ≠ c →
            gfind (gmodify c (fun n => { n with parents := eraseSet j n.parents }) cg) k =
              gfind cg k := fun k hk => gfind_gmodify_ne hk
        have hgc : gfind (gmodify c
            (fun n => { n with parents := eraseSet j n.parents }) cg) c =
            some { cn with parents := eraseSet j cn.parents } :=
          gfind_gmodify_self hc
        have hpre1 : loopPre (gmodify c
            (fun n => { n with parents := eraseSet j n.parents }) cg) J j rest := by
          refine ⟨⟨hndm, hndsm, hsymm1, hclm, hdetm⟩, hjJ,
            fun x hx hxJ => hcsJ x (List.mem_cons_of_mem c hx) hxJ, ?_, ?_, ?_⟩
          · intro e he heJ hjp
            have hf1 := gfind_of_mem hndm he
            by_cases hkc : e.1 = c
            · rw [hkc, hgc] at hf1
              have he2 := Option.some.inj hf1
              rw [← he2] at hjp
              exact absurd hjp (not_mem_eraseSet ((hnds (c, cn) (mem_of_gfind hc)).2))
            · rw [hgm e.1 hkc] at hf1
              have hmem := hlist (e.1, e.2) (mem_of_gfind hf1) heJ hjp
              rcases List.mem_cons.mp hmem with hh | hmem2
              · exact absurd hh hkc
              · exact hmem2
          · intro e he heJ hjp jn1 hjn1
            have hf1 := gfind_of_mem hndm he
            have hejc : e.1 ≠ c := by
              intro hkc
              rw [hkc, hgc] at hf1
              have he2 := Option.some.inj hf1
              rw [← he2] at hjp
              exact absurd hjp (not_mem_eraseSet ((hnds (c, cn) (mem_of_gfind hc)).2))
            rw [hgm e.1 hejc] at hf1
            by_cases hcj : c = j
            · subst hcj
              rw [hgc] at hjn1
              have hjn2 := Option.some.inj hjn1
              rw [← hjn2]
              exact hlch (e.1, e.2) (mem_of_gfind hf1) heJ hjp cn hc
            · rw [hgm j (fun hh => hcj hh.symm)] at hjn1
              exact hlch (e.1, e.2) (mem_of_gfind hf1) heJ hjp jn1 hjn1
          · intro jn1 hjn1 x hx
            by_cases hcj : c = j
            · subst hcj
              rw [hgc] at hjn1
              have hjn2 := Option.some.inj hjn1
              rw [← hjn2] at hx
              exact hown cn hc x hx
            · rw [hgm j (fun hh => hcj hh.symm)] at hjn1
              exact hown jn1 hjn1 x hx
        obtain ⟨hC2, hD2, hDj2, hlist2, hinv2⟩ := ih hpre1 h
        refine ⟨?_, ?_, ?_, hlist2, hinv2⟩
        · intro k n1 hk hkJ
          obtain ⟨m, hm, hv2, hch2, hpar2⟩ := hC2 k n1 hk hkJ
          by_cases hkc : k = c
          · rw [hkc, hgc] at hm
            have hm2 := Option.some.inj hm
            refine ⟨cn, hkc ▸ hc, by rw [hv2, ← hm2], ?_, ?_⟩
            · rw [hch2, ← hm2]
            · rw [hpar2, ← hm2]
              exact filter_aliveNe_eraseSet ((hnds (c, cn) (mem_of_gfind hc)).2)
          · rw [hgm k hkc] at hm
            exact ⟨m, hm, hv2, hch2, hpar2⟩
        · intro k n1 hk hkJ hkj
          obtain ⟨m, hm, hv2, hpar2, hsubl2, hkeep2⟩ := hD2 k n1 hk hkJ hkj
          have hkc : k ≠ c := by
            intro hh
            subst hh
            exact hkj (hcsJ k (List.mem_cons_self k rest) hkJ)
          rw [hgm k hkc] at hm
          exact ⟨m, hm, hv2, hpar2, hsubl2, hkeep2⟩
        · intro n1 hj
          obtain ⟨m, hm, hv2, hsubl2, hkeep2⟩ := hDj2 n1 hj
          by_cases hcj : c = j
          · subst hcj
            rw [hgc] at hm
            have hm2 := Option.some.inj hm
            refine ⟨cn, hc, by rw [hv2, ← hm2], ?_, ?_⟩
            · rw [← hm2] at hsubl2
              exact hsubl2
            · intro y hy hyk
              rw [← hm2] at hkeep2
              exact hkeep2 y hy hyk
          · rw [hgm j (fun hh => hcj hh.symm)] at hm
            exact ⟨m, hm, hv2, hsubl2, hkeep2⟩

theorem filter_keys_gerase {g : Graph} {j : Nat} (hnd : keysNodup g)
    (l : List Nat) :
    l.filter (fun x => decide (x ∈ keys (gerase j g))) =
      l.filter (fun x => decide (x ∈ keys g ∧ x ≠ j)) :=
  filter_congr_of_iff (fun x _ => mem_keys_gerase hnd)

theorem filter_keys_gerase_of_not_mem {g : Graph} {j : Nat} (hnd : keysNodup g)
    {l : List Nat} (hj : j ∉ l) :
    l.filter (fun x => decide (x ∈ keys g)) =
      l.filter (fun x => decide (x ∈ keys (gerase j g))) := by
  apply filter_congr_of_iff
  intro x hx
  have hxj : x ≠ j := fun hh => hj (hh ▸ hx)
  rw [mem_keys_gerase hnd]
  exact ⟨fun h => ⟨h, hxj⟩, fun h => h.1⟩

theorem filter_erase_and {A : List Nat} {j : Nat} {l : List Nat} (hnd : l.Nodup) :
    (eraseSet j l).filter (fun x => decide (x ∈ A)) =
      l.filter (fun x => decide (x ∈ A ∧ x ≠ j)) := by
  rw [eraseSet_eq_filter hnd, filter_filter_pq]
  apply List.filter_congr
  intro x _
  by_cases hA : x ∈ A <;> by_cases hj : x = j <;> simp [hA, hj]

/-! ## The `remove_helper` contract -/

theorem removeHelper_contract {live : Graph} (hlv : virusEq live) :
    ∀ {fuel : Nat} {cg : Graph} {J : List Nat} {j : Nat} {g1 : Graph},
    helperPre cg J j → VG.removeHelper live fuel cg j = some g1 →
    helperPost cg J j g1 := by
  intro fuel
  induction fuel with
  | zero => intro cg J j g1 _ h; cases h
  | succ fuel ih =>
    intro cg J j g1 hpre h
    obtain ⟨hinv, jn, hjn, hself⟩ := hpre
    obtain ⟨hnd, hnds, hsym, hcl, hdet⟩ := hinv
    unfold VG.removeHelper at h
    cases hlf : gfind live j with
    | none => simp [hjn, hlf] at h
    | some ln =>
      simp only [hjn, hlf] at h
      have hvir : ln.virus = j := virusEq_find hlv hlf
      rw [hvir] at h
      cases hef : VG.eraseFromChildren j jn.parents cg with
      | none => simp [hef] at h
      | some cg1 =>
        simp only [hef] at h
        cases hloop : VG.childLoopF (VG.removeHelper live fuel) j cg1
            jn.children with
        | none => simp [hloop] at h
        | some cg2 =>
          simp only [hloop, Option.some.injEq] at h
          subst h
          have hmemjn : (j, jn) ∈ cg := mem_of_gfind hjn
          have hndjc : jn.children.Nodup := (hnds (j, jn) hmemjn).1
          have hinv1 : removeInv cg1 (j :: J) :=
            removeInv_detach ⟨hnd, hnds, hsym, hcl, hdet⟩ hjn
              (fun hjJ => (hself hjJ).1) hef
          have horig := detach_orig hnd hnds hjn hef
          have hcsJ : ∀ c ∈ jn.children, c ∈ j :: J → c = j := by
            intro c hc hcJ
            rcases List.mem_cons.mp hcJ with rfl | hcJ2
            · rfl
            · by_cases hjJ : j ∈ J
              · exact absurd hcJ2 ((hself hjJ).1 c hc)
              · exact absurd hc (hdet (j, jn) hmemjn hjJ c hcJ2)
          have hlister0 : ∀ e ∈ cg1, Prod.fst e ∉ (j :: J) →
              j ∈ (Prod.snd e).parents → Prod.fst e ∈ jn.children := by
            intro e he heJ hjp
            obtain ⟨o, ho, hpar, _, _⟩ := horig e he
            have hmo := mem_of_gfind ho
            have heJ2 : e.1 ∉ J := fun hh => heJ (List.mem_cons_of_mem j hh)
            have hjp0 : j ∈ o.parents := hpar ▸ hjp
            by_cases hjJ : j ∈ J
            · exact (hself hjJ).2 (e.1, o) hmo heJ2 hjp0
            · exact (hsym (j, jn) hmemjn (e.1, o) hmo hjJ heJ2).mpr hjp0
          have hpre1 : loopPre cg1 (j :: J) j jn.children := by
            refine ⟨hinv1, List.mem_cons_self j J, hcsJ, hlister0, ?_, ?_⟩
            · intro e he heJ hjp jn1 hjn1
              have hej : e.1 ≠ j := fun hh => heJ (hh ▸ List.mem_cons_self j J)
              have hin := hlister0 e he heJ hjp
              obtain ⟨o, ho, _, _, hch⟩ := horig (j, jn1) (mem_of_gfind hjn1)
              have ho2 : o = jn := by
                have := ho
                simp only at this
                rw [hjn] at this
                exact (Option.some.inj this).symm
              rcases hch with ⟨hch, _⟩ | ⟨hch, _⟩
              · simp only at hch
                rw [hch, ho2]
                exact hin
              · simp only at hch
                rw [hch, ho2, mem_eraseSet hndjc]
                exact ⟨hin, hej⟩
            · intro jn1 hjn1 x hx
              obtain ⟨o, ho, _, _, hch⟩ := horig (j, jn1) (mem_of_gfind hjn1)
              have ho2 : o = jn := by
                have := ho
                simp only at this
                rw [hjn] at this
                exact (Option.some.inj this).symm
              have hxjc : x ∈ jn.children := by
                rcases hch with ⟨hch, _⟩ | ⟨hch, _⟩
                · simp only at hch
                  rw [hch, ho2] at hx
                  exact hx
                · simp only at hch
                  rw [hch, ho2] at hx
                  exact mem_of_mem_eraseSet hx
              intro hxJ
              rcases List.mem_cons.mp hxJ with hxj | hxJ2
              · rcases hch with ⟨hch, hps⟩ | ⟨hch, _⟩
                · simp only at hch hps
                  by_cases hjJ : j ∈ J
                  · exact (hself hjJ).1 j (hxj ▸ hxjc) hjJ
                  · exact hps ((hsym (j, jn) hmemjn (j, jn) hmemjn hjJ hjJ).mp
                      (hxj ▸ hxjc))
                · simp only at hch
                  rw [hch, ho2] at hx
                  exact not_mem_eraseSet hndjc (hxj ▸ hx)
              · by_cases hjJ : j ∈ J
                · exact (hself hjJ).1 x hxjc hxJ2
                · exact hdet (j, jn) hmemjn hjJ x hxJ2 hxjc
          obtain ⟨hC2, hD2, hDj2, hlist2, hinv2⟩ :=
            childLoopF_contract
              (fun cg c g1 hn hr => removeHelper_sub hn hr)
              (fun cg J c g1 hp hr => ih hp hr) hpre1 hloop
          obtain ⟨hnd2, hnds2, hsym2, hcl2, hdet2⟩ := hinv2
          have hndg1 : keysNodup (gerase j cg2) :=
            keysNodup_of_sublist (keys_gerase_sublist j cg2) hnd2
          have hkg : ∀ x, x ∈ keys (gerase j cg2) ↔ x ∈ keys cg2 ∧ x ≠ j :=
            fun x => mem_keys_gerase hnd2
          have hBj : j ∉ keys (gerase j cg2) := by
            intro hj
            exact ((hkg j).mp hj).2 rfl
          refine ⟨hBj, ?_, ?_, ?_⟩
          · -- surviving non-pending nodes: induced subgraph
            intro k n1 hk hkJ
            have hkj : k ≠ j := by
              intro hh
              subst hh
              exact hBj (mem_keys_of_gfind hk)
            rw [gfind_gerase_ne hkj] at hk
            obtain ⟨m, hm, hv2, hch2, hpar2⟩ := hC2 k n1 hk
              (by
                intro hkJ1
                rcases List.mem_cons.mp hkJ1 with rfl | h2
                · exact hkj rfl
                · exact hkJ h2)
            obtain ⟨o, ho, hparo, hvo, hcho⟩ := detach_orig hnd hnds hjn hef
              (k, m) (mem_of_gfind hm)
            simp only at ho hparo hvo hcho
            refine ⟨o, ho, hv2.trans hvo, ?_, ?_⟩
            · rcases hcho with ⟨hch, hps⟩ | ⟨hch, _⟩
              · rw [hch2, hch]
                have hjnot : j ∉ o.children := by
                  by_cases hjJ : j ∈ J
                  · exact hdet (k, o) (mem_of_gfind ho) hkJ j hjJ
                  · intro hmem
                    exact hps ((hsym (k, o) (mem_of_gfind ho) (j, jn) hmemjn
                      hkJ hjJ).mp hmem)
                exact filter_keys_gerase_of_not_mem hnd2 hjnot
              · rw [hch2, hch, filter_erase_and ((hnds (k, o) (mem_of_gfind ho)).1),
                  filter_keys_gerase hnd2]
            · rw [hpar2, hparo, filter_keys_gerase hnd2]
          · -- surviving pending nodes
            intro k n1 hk hkJ
            have hkj : k ≠ j := by
              intro hh
              subst hh
              exact hBj (mem_keys_of_gfind hk)
            rw [gfind_gerase_ne hkj] at hk
            obtain ⟨m, hm, hv2, hpar2, hsubl2, hkeep2⟩ := hD2 k n1 hk
              (List.mem_cons_of_mem j hkJ) hkj
            obtain ⟨o, ho, hparo, hvo, hcho⟩ := detach_orig hnd hnds hjn hef
              (k, m) (mem_of_gfind hm)
            simp only at ho hparo hvo hcho
            refine ⟨o, ho, hv2.trans hvo, hpar2.trans hparo, ?_, ?_⟩
            · rcases hcho with ⟨hch, _⟩ | ⟨hch, _⟩
              · rw [hch] at hsubl2
                exact hsubl2
              · rw [hch] at hsubl2
                exact hsubl2.trans (eraseSet_sublist j o.children)
            · intro y hy hyk
              have hyj : y ≠ j := ((hkg y).mp hyk).2
              have hyk2 : y ∈ keys cg2 := ((hkg y).mp hyk).1
              have hym : y ∈ m.children := by
                rcases hcho with ⟨hch, _⟩ | ⟨hch, _⟩
                · rw [hch]; exact hy
                · rw [hch, mem_eraseSet ((hnds (k, o) (mem_of_gfind ho)).1)]
                  exact ⟨hy, hyj⟩
              exact hkeep2 y hym hyk2
          · -- the invariant at the original pending set
            refine ⟨hndg1, ?_, ?_, ?_, ?_⟩
            · intro e he
              exact hnds2 e ((gerase_sublist j cg2).mem he)
            · intro e1 he1 e2 he2 h1J h2J
              have h1m : e1 ∈ cg2 := (gerase_sublist j cg2).mem he1
              have h2m : e2 ∈ cg2 := (gerase_sublist j cg2).mem he2
              have h1j : e1.1 ≠ j := by
                have := mem_keys_of_mem he1
                exact ((hkg e1.1).mp this).2
              have h2j : e2.1 ≠ j := by
                have := mem_keys_of_mem he2
                exact ((hkg e2.1).mp this).2
              exact hsym2 e1 h1m e2 h2m
                (by
                  intro hh
                  rcases List.mem_cons.mp hh with hh2 | hh2
                  · exact h1j hh2
                  · exact h1J hh2)
                (by
                  intro hh
                  rcases List.mem_cons.mp hh with hh2 | hh2
                  · exact h2j hh2
                  · exact h2J hh2)
            · intro e he heJ
              have hem : e ∈ cg2 := (gerase_sublist j cg2).mem he
              have hej : e.1 ≠ j := by
                have := mem_keys_of_mem he
                exact ((hkg e.1).mp this).2
              have heJ1 : e.1 ∉ j :: J := by
                intro hh
                rcases List.mem_cons.mp hh with hh2 | hh2
                · exact hej hh2
                · exact heJ hh2
              have hbase := hcl2 e hem heJ1
              constructor
              · intro x hx
                have hxj : x ≠ j := by
                  intro hh
                  rw [hh] at hx
                  exact hdet2 e hem heJ1 j (List.mem_cons_self j J) hx
                exact (hkg x).mpr ⟨hbase.1 x hx, hxj⟩
              · intro p hp
                have hpj : p ≠ j := by
                  intro hh
                  rw [hh] at hp
                  exact absurd (hlist2 e hem heJ1 hp) (List.not_mem_nil e.1)
                exact (hkg p).mpr ⟨hbase.2 p hp, hpj⟩
            · intro e he heJ x hx
              have hem : e ∈ cg2 := (gerase_sublist j cg2).mem he
              have hej : e.1 ≠ j := by
                have := mem_keys_of_mem he
                exact ((hkg e.1).mp this).2
              exact hdet2 e hem
                (by
                  intro hh
                  rcases List.mem_cons.mp hh with hh2 | hh2
                  · exact hej hh2
                  · exact heJ hh2)
                x (List.mem_cons_of_mem j hx)

/-! ## Specification of `remove` on well-formed states -/

theorem sortedSets_nodupSets {g : Graph} (hs : sortedSets g) : nodupSets g :=
  fun e he => ⟨((hs e he).1).nodup, ((hs e he).2).nodup⟩

theorem removeInv_nil {g : Graph} (hnd : keysNodup g) (hs : sortedSets g)
    (hcl : closedRefs g) (hsym : symmRefs g) : removeInv g [] := by
  refine ⟨hnd, sortedSets_nodupSets hs, ?_, ?_, ?_⟩
  · intro e1 he1 e2 he2 _ _
    exact hsym e1 he1 e2 he2
  · intro e he _
    exact hcl e he
  · intro e _ _ x hx
    cases hx

theorem remove_spec {stem : Nat} {v v₁ : VG} (hg : goodState stem v)
    {id : Nat} (h : VG.remove v id = .ok v₁) :
    goodState stem v₁ ∧
    VG.existsV v₁ id = false ∧
    (∀ e ∈ v₁.graph, id ∉ (Prod.snd e).children ∧ id ∉ (Prod.snd e).parents) ∧
    (∀ c cn0 jn, gfind v.graph id = some jn → gfind v.graph c = some cn0 →
      c ∈ jn.children → cn0.parents = [id] → VG.existsV v₁ c = false) := by
  obtain ⟨hsid, hnd, hvq, hsort, hcl, hsym, hsnc, ⟨sn, hsn, hsnp⟩, hpar⟩ := hg
  unfold VG.remove at h
  by_cases h1 : VG.existsV v id
  · by_cases h2 : id = v.stem_id
    · subst h2
      simp [h1] at h
    · simp only [h1, Bool.not_true, Bool.false_eq_true, if_false, h2] at h
      cases hr : VG.removeHelper v.graph (VG.removeFuel v.graph) v.graph id with
      | none => simp [hr] at h
      | some g1 =>
        simp only [hr, Except.ok.injEq] at h
        subst h
        obtain ⟨jn, hjn⟩ := VG.gfind_isSome_of_exists h1
        have hidst : id ≠ stem := fun hh => h2 (hh.trans hsid.symm)
        have hpre : helperPre v.graph [] id :=
          ⟨removeInv_nil hnd hsort hcl hsym, jn, hjn,
            fun hh => absurd hh (by simp)⟩
        obtain ⟨hdead, hC, _, hinvP⟩ := removeHelper_contract hvq hpre hr
        obtain ⟨hnd1, hnds1, hsym1, hcl1, hdet1⟩ := hinvP
        have hCm : ∀ e ∈ g1, ∃ n, gfind v.graph (Prod.fst e) = some n ∧
            (Prod.snd e).virus = n.virus ∧
            (Prod.snd e).children =
              n.children.filter (fun x => decide (x ∈ keys g1)) ∧
            (Prod.snd e).parents =
              n.parents.filter (fun x => decide (x ∈ keys g1)) := by
          intro e he
          exact hC e.1 e.2 (gfind_of_mem hnd1 he) (by simp)
        obtain ⟨hsc0, hpn0, hst0⟩ := removeHelper_stemSafe hr
          (fun e he => hsnc e he) (fun e he hne => hpar e he hne) hidst hnd
        have hexid : VG.existsV (⟨g1, v.stem_id⟩ : VG) id = false := by
          have hnone : gfind g1 id = none := gfind_eq_none_iff.mpr hdead
          simp [VG.existsV, containsKey, hnone]
        refine ⟨⟨hsid, hnd1, ?_, ?_, ?_, ?_, hsc0, ?_, hpn0⟩, hexid, ?_, ?_⟩
        · intro e he
          obtain ⟨n, hn, hv1, _, _⟩ := hCm e he
          exact hv1.trans (hvq (e.1, n) (mem_of_gfind hn))
        · intro e he
          obtain ⟨n, hn, _, hch, hpr⟩ := hCm e he
          constructor
          · rw [hch]
            exact ((hsort (e.1, n) (mem_of_gfind hn)).1).sublist
              (List.filter_sublist _)
          · rw [hpr]
            exact ((hsort (e.1, n) (mem_of_gfind hn)).2).sublist
              (List.filter_sublist _)
        · intro e he
          obtain ⟨n, hn, _, hch, hpr⟩ := hCm e he
          constructor
          · intro c hc
            rw [hch] at hc
            exact (mem_filterP.mp hc).2
          · intro p hp
            rw [hpr] at hp
            exact (mem_filterP.mp hp).2
        · intro e1 he1 e2 he2
          obtain ⟨n1, hn1, _, hch1, hpr1⟩ := hCm e1 he1
          obtain ⟨n2, hn2, _, hch2, hpr2⟩ := hCm e2 he2
          rw [hch1, hpr2]
          rw [mem_filterP, mem_filterP]
          have hbase := hsym (e1.1, n1) (mem_of_gfind hn1) (e2.1, n2)
            (mem_of_gfind hn2)
          constructor
          · intro hmem
            exact ⟨hbase.mp hmem.1, mem_keys_of_mem he1⟩
          · intro hmem
            exact ⟨hbase.mpr hmem.1, mem_keys_of_mem he2⟩
        · obtain ⟨sn1, hsn1, hp1⟩ := hst0 sn hsn
          exact ⟨sn1, hsn1, hp1.trans hsnp⟩
        · intro e he
          obtain ⟨n, hn, _, hch, hpr⟩ := hCm e he
          constructor
          · intro hc
            rw [hch] at hc
            exact hdead (mem_filterP.mp hc).2
          · intro hp
            rw [hpr] at hp
            exact hdead (mem_filterP.mp hp).2
        · intro c cn0 jn1 hjn1 hc0 hmem hsole
          by_cases hcs : VG.existsV (⟨g1, v.stem_id⟩ : VG) c
          · exfalso
            obtain ⟨c1, hc1⟩ := VG.gfind_isSome_of_exists hcs
            obtain ⟨n, hn, _, _, hpr⟩ := hCm (c, c1) (mem_of_gfind hc1)
            simp only at hn hpr
            rw [hc0] at hn
            have hncn : n = cn0 := (Option.some.inj hn).symm
            rw [hncn, hsole] at hpr
            have hprnil : c1.parents = [] := by
              rw [hpr]
              apply List.filter_eq_nil.mpr
              intro a ha
              rcases List.mem_singleton.mp ha with rfl
              simp only [decide_eq_true_eq]
              exact hdead
            have hcstem : c ≠ stem := by
              intro hh
              subst hh
              rw [hsn] at hc0
              have heq := Option.some.inj hc0
              rw [← heq, hsnp] at hsole
              cases hsole
            exact hpn0 (c, c1) (mem_of_gfind hc1) hcstem hprnil
          · exact Bool.eq_false_iff.mpr hcs
  · have h1f : VG.existsV v id = false := Bool.eq_false_iff.mpr h1
    simp [h1f] at h

/-! ## Specification of creation on well-formed states -/

theorem create_virus_set_sorted {g : Graph} : ∀ {ps out : List Nat},
    VG.create_virus_set g ps = some out → List.Sorted (· < ·) out := by
  intro ps
  induction ps with
  | nil =>
    intro out h
    unfold VG.create_virus_set at h
    rw [← Option.some.inj h]
    exact List.sorted_nil
  | cons p rest ih =>
    intro out h
    unfold VG.create_virus_set at h
    cases hp : gfind g p with
    | none => rw [hp] at h; cases h
    | some n =>
      simp only [hp] at h
      cases hr : VG.create_virus_set g rest with
      | none => rw [hr] at h; cases h
      | some rout =>
        simp only [hr] at h
        rw [← Option.some.inj h]
        exact insSet_sorted (ih hr)

theorem create_virus_set_mem {g : Graph} (hvq : virusEq g) : ∀ {ps out : List Nat},
    VG.create_virus_set g ps = some out → ∀ x, (x ∈ out ↔ x ∈ ps) := by
  intro ps
  induction ps with
  | nil =>
    intro out h x
    unfold VG.create_virus_set at h
    rw [← Option.some.inj h]
  | cons p rest ih =>
    intro out h x
    unfold VG.create_virus_set at h
    cases hp : gfind g p with
    | none => rw [hp] at h; cases h
    | some n =>
      simp only [hp] at h
      cases hr : VG.create_virus_set g rest with
      | none => rw [hr] at h; cases h
      | some rout =>
        simp only [hr] at h
        rw [← Option.some.inj h]
        rw [mem_insSet, virusEq_find hvq hp, ih hr x]
        simp

theorem applySwaps_spec {g1 : Graph} {nv : Nat} : ∀ {ps : List Nat}
    {swaps : List (Nat × List Nat)}, VG.prepSwaps g1 nv ps = some swaps →
    ∀ k, gfind (VG.applySwaps g1 swaps) k =
      match gfind g1 k with
      | none => none
      | some n =>
        some (if k ∈ ps then { n with children := insSet nv n.children } else n) := by
  intro ps
  induction ps with
  | nil =>
    intro swaps h k
    unfold VG.prepSwaps at h
    rw [← Option.some.inj h]
    unfold VG.applySwaps
    cases hg : gfind g1 k with
    | none => rfl
    | some n => simp
  | cons p rest ih =>
    intro swaps h k
    unfold VG.prepSwaps at h
    cases hp : gfind g1 p with
    | none => rw [hp] at h; cases h
    | some n =>
      simp only [hp] at h
      cases hr : VG.prepSwaps g1 nv rest with
      | none => rw [hr] at h; cases h
      | some rsw =>
        simp only [hr, Option.some.injEq] at h
        rw [← h]
        unfold VG.applySwaps
        by_cases hk : k = p
        · subst hk
          have hrest := ih hr k
          rw [hp] at hrest
          simp only at hrest
          rw [gfind_gmodify_self hrest, hp]
          simp only [List.mem_cons, true_or, if_pos]
          by_cases hkr : k ∈ rest
          · simp [hkr]
          · simp [hkr]
        · rw [gfind_gmodify_ne hk]
          have hrest := ih hr k
          rw [hrest]
          cases hg : gfind g1 k with
          | none => rfl
          | some m =>
            simp only [List.mem_cons]
            by_cases hkr : k ∈ rest
            · simp [hkr, hk]
            · simp [hkr, hk]

theorem create_many_ok_spec {v : VG} {id : Nat} {ps : List Nat} {v₁ : VG}
    (hvq : virusEq v.graph) (hne : ps ≠ [])
    (h : VG.create_many v id ps = .ok v₁) :
    VG.existsV v id = false ∧ (∀ p ∈ ps, VG.existsV v p = true) ∧
    v₁.stem_id = v.stem_id ∧ id ∉ ps ∧
    ∃ parents, VG.create_virus_set v.graph ps = some parents ∧
      (∀ x, x ∈ parents ↔ x ∈ ps) ∧ List.Sorted (· < ·) parents ∧
      ∀ k, gfind v₁.graph k =
        if k = id then some ⟨[], parents, id⟩
        else match gfind v.graph k with
          | none => none
          | some n =>
            some (if k ∈ ps then { n with children := insSet id n.children }
              else n) := by
  unfold VG.create_many at h
  by_cases h1 : VG.existsV v id
  · simp [h1] at h
  · by_cases h2 : ps.any (fun p => !VG.existsV v p)
    · simp [h1, h2] at h
    · have hall : ∀ p ∈ ps, VG.existsV v p = true := by
        intro p hp
        by_cases hc : VG.existsV v p
        · exact hc
        · exact absurd (List.any_eq_true.mpr ⟨p, hp, by simp [Bool.eq_false_iff.mpr hc]⟩) h2
      have h1f : VG.existsV v id = false := Bool.eq_false_iff.mpr h1
      have hlen : ps.length ≠ 0 := fun hh => hne (List.length_eq_zero.mp hh)
      simp only [h1, Bool.false_eq_true, if_false, h2, if_false, hlen] at h
      cases hcv : VG.create_virus_set v.graph ps with
      | none => simp [hcv] at h
      | some parents =>
        simp only [hcv] at h
        cases hps : VG.prepSwaps (ginsert id ⟨[], parents, id⟩ v.graph) id ps with
        | none => simp [hps] at h
        | some swaps =>
          simp only [hps, Except.ok.injEq] at h
          subst h
          have hfid : gfind v.graph id = none := VG.gfind_none_of_not_exists h1
          have hidps : id ∉ ps := by
            intro hmem
            rw [hall id hmem] at h1
            exact h1 rfl
          refine ⟨h1f, hall, rfl, hidps, parents, rfl,
            create_virus_set_mem hvq hcv, create_virus_set_sorted hcv, ?_⟩
          intro k
          have hspec := applySwaps_spec hps k
          by_cases hk : k = id
          · subst hk
            rw [gfind_ginsert_self hfid] at hspec
            simp only [if_neg hidps] at hspec
            simp only [if_pos rfl]
            exact hspec
          · rw [gfind_ginsert_ne hk] at hspec
            simp only [if_neg hk]
            exact hspec

theorem keys_applySwaps (g : Graph) : ∀ (l : List (Nat × List Nat)),
    keys (VG.applySwaps g l) = keys g
  | [] => rfl
  | (p, cs) :: rest => by
    unfold VG.applySwaps
    rw [keys_gmodify, keys_applySwaps g rest]

theorem create_many_ok_keysNodup {v : VG} {id : Nat} {ps : List Nat} {v₁ : VG}
    (hnd : keysNodup v.graph) (h : VG.create_many v id ps = .ok v₁) :
    keysNodup v₁.graph := by
  unfold VG.create_many at h
  by_cases h1 : VG.existsV v id
  · simp [h1] at h
  · by_cases h2 : ps.any (fun p => !VG.existsV v p)
    · simp [h1, h2] at h
    · by_cases h3 : ps.length = 0
      · simp only [h1, Bool.false_eq_true, if_false, h2, if_false, h3, if_true,
          Except.ok.injEq] at h
        rw [← h]
        exact hnd
      · simp only [h1, Bool.false_eq_true, if_false, h2, if_false, h3] at h
        cases hcv : VG.create_virus_set v.graph ps with
        | none => simp [hcv] at h
        | some parents =>
          simp only [hcv] at h
          cases hps : VG.prepSwaps (ginsert id ⟨[], parents, id⟩ v.graph) id ps with
          | none => simp [hps] at h
          | some swaps =>
            simp only [hps, Except.ok.injEq] at h
            subst h
            have hfid : gfind v.graph id = none := VG.gfind_none_of_not_exists h1
            show keysNodup (VG.applySwaps (ginsert id ⟨[], parents, id⟩ v.graph) swaps)
            unfold keysNodup
            rw [keys_applySwaps]
            refine ((keys_ginsert_perm hfid).nodup_iff).mpr ?_
            exact List.nodup_cons.mpr ⟨gfind_eq_none_iff.mp hfid, hnd⟩

theorem create_many_goodState {stem : Nat} {v v₁ : VG} (hg : goodState stem v)
    {id : Nat} {ps : List Nat} (h : VG.create_many v id ps = .ok v₁) :
    goodState stem v₁ := by
  obtain ⟨hst, hnd, hvq, hso, hcl, hsy, hstc, ⟨sn, hsn, hsnp⟩, hpar⟩ := hg
  by_cases hnil : ps = []
  · subst hnil
    unfold VG.create_many at h
    by_cases h1 : VG.existsV v id
    · simp [h1] at h
    · simp only [h1, Bool.false_eq_true, if_false, List.any_nil, if_false,
        List.length_nil, if_true, Except.ok.injEq] at h
      rw [← h]
      exact ⟨hst, hnd, hvq, hso, hcl, hsy, hstc, ⟨sn, hsn, hsnp⟩, hpar⟩
  · obtain ⟨hidE, hall, hstem, hidps, parents, hcv, hpmem, hpsort, hchar⟩ :=
      create_many_ok_spec hvq hnil h
    have hnd1 : keysNodup v₁.graph := create_many_ok_keysNodup hnd h
    have hfidv : gfind v.graph id = none :=
      VG.gfind_none_of_not_exists (by rw [hidE]; exact Bool.false_ne_true)
    have hidnk : id ∉ keys v.graph := gfind_eq_none_iff.mp hfidv
    have hstemk : stem ∈ keys v.graph := mem_keys_of_gfind hsn
    have hidstem : id ≠ stem := fun hh => hidnk (hh ▸ hstemk)
    have hpskeys : ∀ p ∈ ps, p ∈ keys v.graph := by
      intro p hp
      exact containsKey_iff.mp (hall p hp)
    have horig : ∀ {k : Nat} {n : Node}, gfind v₁.graph k = some n →
        (k = id ∧ n = ⟨[], parents, id⟩) ∨
        ∃ m, gfind v.graph k = some m ∧
          ((k ∈ ps ∧ n = { m with children := insSet id m.children }) ∨
            (k ∉ ps ∧ n = m)) := by
      intro k n hn
      rw [hchar k] at hn
      by_cases hki : k = id
      · subst hki
        rw [if_pos rfl] at hn
        exact Or.inl ⟨rfl, (Option.some.inj hn).symm⟩
      · rw [if_neg hki] at hn
        cases hv : gfind v.graph k with
        | none => rw [hv] at hn; cases hn
        | some m =>
          simp only [hv] at hn
          refine Or.inr ⟨m, rfl, ?_⟩
          by_cases hkp : k ∈ ps
          · exact Or.inl ⟨hkp, by rw [← Option.some.inj hn, if_pos hkp]⟩
          · exact Or.inr ⟨hkp, by rw [← Option.some.inj hn, if_neg hkp]⟩
    have hmemk : ∀ k, k ∈ keys v₁.graph ↔ k = id ∨ k ∈ keys v.graph := by
      intro k
      constructor
      · intro hk
        obtain ⟨n, hn⟩ := gfind_some_of_mem_keys hk
        rcases horig hn with ⟨hki, _⟩ | ⟨m, hm, _⟩
        · exact Or.inl hki
        · exact Or.inr (mem_keys_of_gfind hm)
      · intro hk
        rcases hk with hki | hkv
        · have hh := hchar k
          rw [if_pos hki] at hh
          exact mem_keys_of_gfind hh
        · obtain ⟨m, hm⟩ := gfind_some_of_mem_keys hkv
          have hh := hchar k
          by_cases hki : k = id
          · rw [if_pos hki] at hh
            exact mem_keys_of_gfind hh
          · rw [if_neg hki] at hh
            simp only [hm] at hh
            exact mem_keys_of_gfind hh
    refine ⟨hstem.trans hst, hnd1, ?_, ?_, ?_, ?_, ?_, ?_, ?_⟩
    · -- virusEq
      intro e he
      have hfe := (mem_entry_iff_gfind hnd1).mp he
      rcases horig hfe with ⟨hki, hni⟩ | ⟨m, hm, hcase⟩
      · rw [hni, hki]
      · have hmv : m.virus = Prod.fst e := virusEq_find hvq hm
        rcases hcase with ⟨_, hni⟩ | ⟨_, hni⟩
        · rw [hni]; exact hmv
        · rw [hni]; exact hmv
    · -- sortedSets
      intro e he
      have hfe := (mem_entry_iff_gfind hnd1).mp he
      rcases horig hfe with ⟨hki, hni⟩ | ⟨m, hm, hcase⟩
      · rw [hni]
        exact ⟨List.sorted_nil, hpsort⟩
      · have hms := sortedSets_find hso hm
        rcases hcase with ⟨_, hni⟩ | ⟨_, hni⟩
        · rw [hni]
          exact ⟨insSet_sorted hms.1, hms.2⟩
        · rw [hni]; exact hms
    · -- closedRefs
      intro e he
      have hfe := (mem_entry_iff_gfind hnd1).mp he
      rcases horig hfe with ⟨hki, hni⟩ | ⟨m, hm, hcase⟩
      · rw [hni]
        refine ⟨?_, ?_⟩
        · intro c hc
          cases hc
        · intro p hp
          rw [hmemk p]
          exact Or.inr (hpskeys p ((hpmem p).mp hp))
      · have hmc := closedRefs_find hcl hm
        rcases hcase with ⟨_, hni⟩ | ⟨_, hni⟩
        · rw [hni]
          refine ⟨?_, ?_⟩
          · intro c hc
            rcases mem_insSet.mp hc with hc | hc
            · rw [hmemk c]; exact Or.inl hc
            · rw [hmemk c]; exact Or.inr (hmc.1 c hc)
          · intro p hp
            rw [hmemk p]
            exact Or.inr (hmc.2 p hp)
        · rw [hni]
          refine ⟨fun c hc => (hmemk c).mpr (Or.inr (hmc.1 c hc)),
            fun p hp => (hmemk p).mpr (Or.inr (hmc.2 p hp))⟩
    · -- symmRefs
      intro e₁ he₁ e₂ he₂
      have hf₁ := (mem_entry_iff_gfind hnd1).mp he₁
      have hf₂ := (mem_entry_iff_gfind hnd1).mp he₂
      rcases horig hf₁ with ⟨hk₁, hn₁⟩ | ⟨m₁, hm₁, hcase₁⟩
      · rcases horig hf₂ with ⟨hk₂, hn₂⟩ | ⟨m₂, hm₂, hcase₂⟩
        · -- both are the new node
          rw [hn₁, hn₂, hk₁, hk₂]
          simp only [List.not_mem_nil, false_iff]
          intro hc
          exact hidps ((hpmem id).mp hc)
        · -- e₁ new, e₂ old
          have hk₂id : Prod.fst e₂ ≠ id := by
            intro hh
            rw [hh, hfidv] at hm₂
            cases hm₂
          rw [hn₁]
          simp only [List.not_mem_nil, false_iff]
          have hp₂ : (Prod.snd e₂).parents = m₂.parents := by
            rcases hcase₂ with ⟨_, hni⟩ | ⟨_, hni⟩ <;> rw [hni]
          rw [hp₂, hk₁]
          intro hc
          exact hidnk ((closedRefs_find hcl hm₂).2 id hc)
      · rcases horig hf₂ with ⟨hk₂, hn₂⟩ | ⟨m₂, hm₂, hcase₂⟩
        · -- e₁ old, e₂ new
          rw [hn₂, hk₂]
          rcases hcase₁ with ⟨hin, hni⟩ | ⟨hnin, hni⟩
          · rw [hni]
            simp only
            rw [mem_insSet]
            constructor
            · intro _
              exact (hpmem (Prod.fst e₁)).mpr hin
            · intro _
              exact Or.inl rfl
          · rw [hni]
            constructor
            · intro hc
              exact absurd ((closedRefs_find hcl hm₁).1 id hc) hidnk
            · intro hp
              exact absurd ((hpmem (Prod.fst e₁)).mp hp) hnin
        · -- both old
          have hk₂id : Prod.fst e₂ ≠ id := by
            intro hh
            rw [hh, hfidv] at hm₂
            cases hm₂
          have hsym := symmRefs_find hsy hm₁ hm₂
          have hp₂ : (Prod.snd e₂).parents = m₂.parents := by
            rcases hcase₂ with ⟨_, hni⟩ | ⟨_, hni⟩ <;> rw [hni]
          rw [hp₂]
          rcases hcase₁ with ⟨_, hni⟩ | ⟨_, hni⟩
          · rw [hni]
            simp only
            rw [mem_insSet]
            constructor
            · intro hc
              rcases hc with hc | hc
              · exact absurd hc hk₂id
              · exact hsym.mp hc
            · intro hp
              exact Or.inr (hsym.mpr hp)
          · rw [hni]
            exact hsym
    · -- stemNotChild
      intro e he
      have hfe := (mem_entry_iff_gfind hnd1).mp he
      rcases horig hfe with ⟨hki, hni⟩ | ⟨m, hm, hcase⟩
      · rw [hni]
        exact List.not_mem_nil stem
      · rcases hcase with ⟨_, hni⟩ | ⟨_, hni⟩
        · rw [hni]
          simp only
          rw [mem_insSet]
          rintro (hc | hc)
          · exact hidstem hc.symm
          · exact hstc (Prod.fst e, m) (mem_of_gfind hm) hc
        · rw [hni]
          exact hstc (Prod.fst e, m) (mem_of_gfind hm)
    · -- stem entry with empty parents
      have hh := hchar stem
      rw [if_neg (Ne.symm hidstem), hsn] at hh
      simp only at hh
      by_cases hsp : stem ∈ ps
      · rw [if_pos hsp] at hh
        exact ⟨_, hh, hsnp⟩
      · rw [if_neg hsp] at hh
        exact ⟨sn, hh, hsnp⟩
    · -- non-stem nodes keep a parent
      intro e he hne
      have hfe := (mem_entry_iff_gfind hnd1).mp he
      rcases horig hfe with ⟨hki, hni⟩ | ⟨m, hm, hcase⟩
      · rw [hni]
        simp only
        cases hpse : ps with
        | nil => exact absurd hpse hnil
        | cons p rest =>
          intro hnilp
          have : p ∈ parents := (hpmem p).mpr (by rw [hpse]; exact List.mem_cons_self p rest)
          rw [hnilp] at this
          cases this
      · have hmp : (Prod.snd e).parents = m.parents := by
          rcases hcase with ⟨_, hni⟩ | ⟨_, hni⟩ <;> rw [hni]
        rw [hmp]
        exact hpar (Prod.fst e, m) (mem_of_gfind hm) hne

/-- Common shape of the graph after a successful non-trivial `connect`:
every node comes from an original node, with at most `c` inserted into the
children (at key `p`) and at most `p` inserted into the parents (at key
`c`).  Covers the self-connect case `c = p`. -/
theorem connect_shape_goodState {stem c p : Nat} {v v₂ : VG}
    (hg : goodState stem v) (hcs : c ≠ stem)
    (hck : c ∈ keys v.graph) (hpk : p ∈ keys v.graph)
    (hsid : v₂.stem_id = stem)
    (hkeys : keys v₂.graph = keys v.graph)
    (horig : ∀ {k : Nat} {n : Node}, gfind v₂.graph k = some n →
      ∃ m, gfind v.graph k = some m ∧ n.virus = m.virus ∧
        (n.children = insSet c m.children ∨ n.children = m.children) ∧
        (n.parents = insSet p m.parents ∨ n.parents = m.parents) ∧
        (∀ x, x ∈ n.children ↔ (k = p ∧ x = c) ∨ x ∈ m.children) ∧
        (∀ x, x ∈ n.parents ↔ (k = c ∧ x = p) ∨ x ∈ m.parents)) :
    goodState stem v₂ := by
  obtain ⟨hst, hnd, hvq, hso, hcl, hsy, hstc, ⟨sn, hsn, hsnp⟩, hpar⟩ := hg
  have hnd₂ : keysNodup v₂.graph := by
    unfold keysNodup
    rw [hkeys]
    exact hnd
  refine ⟨hsid, hnd₂, ?_, ?_, ?_, ?_, ?_, ?_, ?_⟩
  · -- virusEq
    intro e he
    obtain ⟨m, hm, hv, _⟩ := horig ((mem_entry_iff_gfind hnd₂).mp he)
    rw [hv]
    exact virusEq_find hvq hm
  · -- sortedSets
    intro e he
    obtain ⟨m, hm, _, hcsh, hpsh, _⟩ := horig ((mem_entry_iff_gfind hnd₂).mp he)
    have hms := sortedSets_find hso hm
    constructor
    · rcases hcsh with hh | hh
      · rw [hh]; exact insSet_sorted hms.1
      · rw [hh]; exact hms.1
    · rcases hpsh with hh | hh
      · rw [hh]; exact insSet_sorted hms.2
      · rw [hh]; exact hms.2
  · -- closedRefs
    intro e he
    obtain ⟨m, hm, _, _, _, hcmem, hpmem⟩ := horig ((mem_entry_iff_gfind hnd₂).mp he)
    have hmc := closedRefs_find hcl hm
    constructor
    · intro x hx
      rcases (hcmem x).mp hx with ⟨_, hxc⟩ | hx
      · rw [hkeys, hxc]; exact hck
      · rw [hkeys]; exact hmc.1 x hx
    · intro x hx
      rcases (hpmem x).mp hx with ⟨_, hxp⟩ | hx
      · rw [hkeys, hxp]; exact hpk
      · rw [hkeys]; exact hmc.2 x hx
  · -- symmRefs
    intro e₁ he₁ e₂ he₂
    obtain ⟨m₁, hm₁, _, _, _, hcmem₁, _⟩ := horig ((mem_entry_iff_gfind hnd₂).mp he₁)
    obtain ⟨m₂, hm₂, _, _, _, _, hpmem₂⟩ := horig ((mem_entry_iff_gfind hnd₂).mp he₂)
    have hsym := symmRefs_find hsy hm₁ hm₂
    rw [hcmem₁ (Prod.fst e₂), hpmem₂ (Prod.fst e₁)]
    constructor
    · rintro (⟨h1, h2⟩ | hx)
      · exact Or.inl ⟨h2, h1⟩
      · exact Or.inr (hsym.mp hx)
    · rintro (⟨h1, h2⟩ | hx)
      · exact Or.inl ⟨h2, h1⟩
      · exact Or.inr (hsym.mpr hx)
  · -- stemNotChild
    intro e he
    obtain ⟨m, hm, _, _, _, hcmem, _⟩ := horig ((mem_entry_iff_gfind hnd₂).mp he)
    intro hx
    rcases (hcmem stem).mp hx with ⟨_, hsc⟩ | hx
    · exact hcs hsc.symm
    · exact hstc (Prod.fst e, m) (mem_of_gfind hm) hx
  · -- stem entry with empty parents
    have hsk : stem ∈ keys v₂.graph := by
      rw [hkeys]
      exact mem_keys_of_gfind hsn
    obtain ⟨n, hn⟩ := gfind_some_of_mem_keys hsk
    obtain ⟨m, hm, _, _, _, _, hpmem⟩ := horig hn
    have hmsn : m = sn := by
      rw [hsn] at hm
      exact (Option.some.inj hm).symm
    refine ⟨n, hn, ?_⟩
    rw [List.eq_nil_iff_forall_not_mem]
    intro x hx
    rcases (hpmem x).mp hx with ⟨hsc, _⟩ | hx
    · exact hcs hsc.symm
    · rw [hmsn, hsnp] at hx
      cases hx
  · -- non-stem nodes keep a parent
    intro e he hne
    obtain ⟨m, hm, _, _, _, _, hpmem⟩ := horig ((mem_entry_iff_gfind hnd₂).mp he)
    have hmp : m.parents ≠ [] := hpar (Prod.fst e, m) (mem_of_gfind hm) hne
    obtain ⟨x, hx⟩ := List.exists_mem_of_ne_nil m.parents hmp
    intro hnil
    have : x ∈ (Prod.snd e).parents := (hpmem x).mpr (Or.inr hx)
    rw [hnil] at this
    cases this

theorem connect_goodState {stem : Nat} {v v₁ : VG} (hg : goodState stem v)
    {c p : Nat} (hcs : c ≠ stem) (h : VG.connect v c p = .ok v₁) :
    goodState stem v₁ := by
  have hnd := hg.2.1
  have hvq := hg.2.2.1
  have hst := hg.1
  unfold VG.connect at h
  by_cases h1 : (!VG.existsV v c || !VG.existsV v p) = true
  · rw [if_pos h1] at h
    cases h
  · rw [if_neg h1] at h
    cases hc : gfind v.graph c with
    | none => simp [hc] at h
    | some cn =>
      cases hp : gfind v.graph p with
      | none => simp [hc, hp] at h
      | some pn =>
        simp only [hc, hp] at h
        have hcv : cn.virus = c := virusEq_find hvq hc
        have hpv : pn.virus = p := virusEq_find hvq hp
        have hck : c ∈ keys v.graph := mem_keys_of_gfind hc
        have hpk : p ∈ keys v.graph := mem_keys_of_gfind hp
        by_cases hin : p ∈ cn.parents
        · rw [if_pos hin] at h
          rw [← Except.ok.inj h]
          exact hg
        · rw [if_neg hin] at h
          have hv₁ := (Except.ok.inj h).symm
          have hvG : v₁.graph =
              gmodify p (fun n => { n with children := insSet cn.virus n.children })
                (gmodify c (fun n => { n with parents := insSet pn.virus n.parents })
                  v.graph) := by
            rw [hv₁]
          have hsid : v₁.stem_id = stem := by
            rw [hv₁]
            exact hst
          have hkeys : keys v₁.graph = keys v.graph := by
            rw [hvG, keys_gmodify, keys_gmodify]
          by_cases hcp : c = p
          · -- self-connect
            refine connect_shape_goodState hg hcs hck hpk hsid hkeys ?_
            intro k n hn
            rw [hvG] at hn
            by_cases hkc : k = c
            · have hfc1 : gfind (gmodify c
                  (fun n => { n with parents := insSet pn.virus n.parents }) v.graph) c =
                  some ⟨cn.children, insSet pn.virus cn.parents, cn.virus⟩ :=
                gfind_gmodify_self hc
              rw [hkc, ← hcp] at hn
              rw [gfind_gmodify_self hfc1] at hn
              have hne : n = ⟨insSet cn.virus cn.children,
                  insSet pn.virus cn.parents, cn.virus⟩ := (Option.some.inj hn).symm
              refine ⟨cn, by rw [hkc]; exact hc, ?_, ?_, ?_, ?_, ?_⟩
              · rw [hne]
              · left; rw [hne, hcv]
              · left; rw [hne, hpv]
              · intro x
                rw [hne, hcv]
                simp only [mem_insSet]
                constructor
                · rintro (hx | hx)
                  · exact Or.inl ⟨by rw [hkc, hcp], hx⟩
                  · exact Or.inr hx
                · rintro (⟨_, hx⟩ | hx)
                  · exact Or.inl hx
                  · exact Or.inr hx
              · intro x
                rw [hne, hpv]
                simp only [mem_insSet]
                constructor
                · rintro (hx | hx)
                  · exact Or.inl ⟨hkc, hx⟩
                  · exact Or.inr hx
                · rintro (⟨_, hx⟩ | hx)
                  · exact Or.inl hx
                  · exact Or.inr hx
            · have hkp : k ≠ p := by rw [← hcp]; exact hkc
              rw [gfind_gmodify_ne hkp, gfind_gmodify_ne hkc] at hn
              refine ⟨n, hn, rfl, Or.inr rfl, Or.inr rfl, ?_, ?_⟩
              · intro x
                constructor
                · intro hx; exact Or.inr hx
                · rintro (⟨hx, _⟩ | hx)
                  · exact absurd hx hkp
                  · exact hx
              · intro x
                constructor
                · intro hx; exact Or.inr hx
                · rintro (⟨hx, _⟩ | hx)
                  · exact absurd hx hkc
                  · exact hx
          · -- distinct child and parent
            refine connect_shape_goodState hg hcs hck hpk hsid hkeys ?_
            intro k n hn
            rw [hvG] at hn
            by_cases hkp : k = p
            · have hfp : gfind (gmodify c
                  (fun n => { n with parents := insSet pn.virus n.parents }) v.graph) p =
                  some pn := by
                rw [gfind_gmodify_ne (fun hh => hcp hh.symm)]
                exact hp
              rw [hkp, gfind_gmodify_self hfp] at hn
              have hne : n = ⟨insSet cn.virus pn.children, pn.parents, pn.virus⟩ :=
                (Option.some.inj hn).symm
              refine ⟨pn, by rw [hkp]; exact hp, ?_, ?_, ?_, ?_, ?_⟩
              · rw [hne]
              · left; rw [hne, hcv]
              · right; rw [hne]
              · intro x
                rw [hne, hcv]
                simp only [mem_insSet]
                constructor
                · rintro (hx | hx)
                  · exact Or.inl ⟨hkp, hx⟩
                  · exact Or.inr hx
                · rintro (⟨_, hx⟩ | hx)
                  · exact Or.inl hx
                  · exact Or.inr hx
              · intro x
                rw [hne]
                constructor
                · intro hx; exact Or.inr hx
                · rintro (⟨hx, _⟩ | hx)
                  · exact absurd (hx.symm.trans hkp) hcp
                  · exact hx
            · rw [gfind_gmodify_ne hkp] at hn
              by_cases hkc : k = c
              · rw [hkc, gfind_gmodify_self hc] at hn
                have hne : n = ⟨cn.children, insSet pn.virus cn.parents, cn.virus⟩ :=
                  (Option.some.inj hn).symm
                refine ⟨cn, by rw [hkc]; exact hc, ?_, ?_, ?_, ?_, ?_⟩
                · rw [hne]
                · right; rw [hne]
                · left; rw [hne, hpv]
                · intro x
                  rw [hne]
                  constructor
                  · intro hx; exact Or.inr hx
                  · rintro (⟨hx, _⟩ | hx)
                    · exact absurd (hkc.symm.trans hx) hcp
                    · exact hx
                · intro x
                  rw [hne, hpv]
                  simp only [mem_insSet]
                  constructor
                  · rintro (hx | hx)
                    · exact Or.inl ⟨hkc, hx⟩
                    · exact Or.inr hx
                  · rintro (⟨_, hx⟩ | hx)
                    · exact Or.inl hx
                    · exact Or.inr hx
              · rw [gfind_gmodify_ne hkc] at hn
                refine ⟨n, hn, rfl, Or.inr rfl, Or.inr rfl, ?_, ?_⟩
                · intro x
                  constructor
                  · intro hx; exact Or.inr hx
                  · rintro (⟨hx, _⟩ | hx)
                    · exact absurd hx hkp
                    · exact hx
                · intro x
                  constructor
                  · intro hx; exact Or.inr hx
                  · rintro (⟨hx, _⟩ | hx)
                    · exact absurd hx hkc
                    · exact hx

theorem construct_goodState (stem : Nat) : goodState stem (VG.construct stem) := by
  refine ⟨rfl, ?_, ?_, ?_, ?_, ?_, ?_, ?_, ?_⟩
  · simp [keysNodup, keys, VG.construct]
  · intro e he
    rw [VG.construct, List.mem_singleton] at he
    rw [he]
  · intro e he
    rw [VG.construct, List.mem_singleton] at he
    rw [he]
    exact ⟨List.sorted_nil, List.sorted_nil⟩
  · intro e he
    rw [VG.construct, List.mem_singleton] at he
    rw [he]
    exact ⟨fun c hc => absurd hc (List.not_mem_nil c),
      fun p hp => absurd hp (List.not_mem_nil p)⟩
  · intro e₁ he₁ e₂ he₂
    rw [VG.construct, List.mem_singleton] at he₁ he₂
    rw [he₁, he₂]
  · intro e he
    rw [VG.construct, List.mem_singleton] at he
    rw [he]
    exact List.not_mem_nil stem
  · refine ⟨⟨[], [], stem⟩, ?_, rfl⟩
    simp [VG.construct, gfind]
  · intro e he hne
    rw [VG.construct, List.mem_singleton] at he
    exact absurd (by rw [he]) hne

theorem reachable_goodState {stem : Nat} {v : VG} (h : VG.ReachableNS stem v) :
    goodState stem v := by
  induction h with
  | init => exact construct_goodState stem
  | step op hr hok hns ih =>
    cases op with
    | createOne id p =>
      simp only [VG.applyOp] at hok
      rw [VG.create_one_eq_many] at hok
      exact create_many_goodState ih hok
    | createMany id ps =>
      simp only [VG.applyOp] at hok
      exact create_many_goodState ih hok
    | connectOp c p =>
      simp only [VG.applyOp] at hok
      have hcs : c ≠ stem := by
        simp only [notConnectStem, bne_iff_ne, ne_eq] at hns
        exact hns
      exact connect_goodState ih hcs hok
    | removeOp id =>
      simp only [VG.applyOp] at hok
      exact (remove_spec ih hok).1

/-- Counterexample to claim C2 as stated: `connect` accepts the stem as the
child, so after the successful operations `create(1, 0)` and
`connect(0, 1)` on a genealogy with stem 0, the reachable state has a stem
whose parent set is `[1] ≠ []`, violating the stated invariant. -/
theorem claim_C2_counterexample :
    VG.create_one (VG.construct 0) 1 0 =
      .ok ⟨[(0, ⟨[1], [], 0⟩), (1, ⟨[], [0], 1⟩)], 0⟩ ∧
    VG.connect ⟨[(0, ⟨[1], [], 0⟩), (1, ⟨[], [0], 1⟩)], 0⟩ 0 1 =
      .ok ⟨[(0, ⟨[1], [1], 0⟩), (1, ⟨[0], [0], 1⟩)], 0⟩ ∧
    ¬ specInvariants 0 ⟨[(0, ⟨[1], [1], 0⟩), (1, ⟨[0], [0], 1⟩)], 0⟩ := by
  refine ⟨by decide, by decide, ?_⟩
  rintro ⟨⟨sn, hsn, hp⟩, -, -⟩
  have h1 : (⟨[1], [1], 0⟩ : Node) = sn := Option.some.inj hsn
  rw [← h1] at hp
  exact List.noConfusion hp

/-- Claim C2 (amended): in every state reachable from construction by a
sequence of successful operations in which `connect` is never invoked with
the stem as the child, the structural invariants hold: the stem exists with
an empty parent set (hence was never removed), every non-stem node has at
least one parent, and parent/child references are symmetric. -/
theorem claim_C2_invariants {stem : Nat} {v : VG} (h : VG.ReachableNS stem v) :
    specInvariants stem v := by
  obtain ⟨_, _, _, _, _, hsy, _, hsn, hpar⟩ := reachable_goodState h
  exact ⟨hsn, hpar, hsy⟩

theorem claim_C2_invariants_witness :
    specInvariants 0 ⟨[(0, ⟨[1], [], 0⟩), (1, ⟨[], [0], 1⟩)], 0⟩ :=
  claim_C2_invariants
    (VG.ReachableNS.step (Op.createOne 1 0) (VG.ReachableNS.init 0)
      (by decide) rfl)

/-- Counterexample to claim C3 as stated: with stem 0, after `create(1,0)`,
`create(2,1)`, `create(3,1)`, `connect(3,2)`, node 3 is a child of node 1
with a second parent 2, yet `remove(1)` cascades through node 2 and removes
node 3 as well, refuting the clause that a child with another parent always
survives. -/
theorem claim_C3_counterexample :
    VG.create_one (VG.construct 0) 1 0 =
      .ok ⟨[(0, ⟨[1], [], 0⟩), (1, ⟨[], [0], 1⟩)], 0⟩ ∧
    VG.create_one ⟨[(0, ⟨[1], [], 0⟩), (1, ⟨[], [0], 1⟩)], 0⟩ 2 1 =
      .ok ⟨[(0, ⟨[1], [], 0⟩), (1, ⟨[2], [0], 1⟩), (2, ⟨[], [1], 2⟩)], 0⟩ ∧
    VG.create_one ⟨[(0, ⟨[1], [], 0⟩), (1, ⟨[2], [0], 1⟩), (2, ⟨[], [1], 2⟩)], 0⟩
        3 1 =
      .ok ⟨[(0, ⟨[1], [], 0⟩), (1, ⟨[2, 3], [0], 1⟩), (2, ⟨[], [1], 2⟩),
        (3, ⟨[], [1], 3⟩)], 0⟩ ∧
    VG.connect ⟨[(0, ⟨[1], [], 0⟩), (1, ⟨[2, 3], [0], 1⟩), (2, ⟨[], [1], 2⟩),
        (3, ⟨[], [1], 3⟩)], 0⟩ 3 2 =
      .ok ⟨[(0, ⟨[1], [], 0⟩), (1, ⟨[2, 3], [0], 1⟩), (2, ⟨[3], [1], 2⟩),
        (3, ⟨[], [1, 2], 3⟩)], 0⟩ ∧
    gfind ([(0, ⟨[1], [], 0⟩), (1, ⟨[2, 3], [0], 1⟩), (2, ⟨[3], [1], 2⟩),
        (3, ⟨[], [1, 2], 3⟩)] : Graph) 3 = some ⟨[], [1, 2], 3⟩ ∧
    VG.remove ⟨[(0, ⟨[1], [], 0⟩), (1, ⟨[2, 3], [0], 1⟩), (2, ⟨[3], [1], 2⟩),
        (3, ⟨[], [1, 2], 3⟩)], 0⟩ 1 = .ok ⟨[(0, ⟨[], [], 0⟩)], 0⟩ ∧
    VG.existsV ⟨[(0, ⟨[], [], 0⟩)], 0⟩ 3 = false := by
  decide

/-- Claim C3 (amended): on a well-formed state, after `remove(id)` succeeds
the target is gone, no surviving node lists it among its children or
parents, every child whose parent set was exactly `[id]` is removed as
well, and every surviving non-stem node keeps at least one parent. -/
theorem claim_C3_remove_postconditions {stem : Nat} {v v₁ : VG}
    (hg : goodState stem v) {id : Nat} (h : VG.remove v id = .ok v₁) :
    VG.existsV v₁ id = false ∧
    (∀ e ∈ v₁.graph, id ∉ (Prod.snd e).children ∧ id ∉ (Prod.snd e).parents) ∧
    (∀ c cn0 jn, gfind v.graph id = some jn → gfind v.graph c = some cn0 →
      c ∈ jn.children → cn0.parents = [id] → VG.existsV v₁ c = false) ∧
    (∀ e ∈ v₁.graph, Prod.fst e ≠ stem → (Prod.snd e).parents ≠ []) := by
  obtain ⟨hg1, h1, h2, h3⟩ := remove_spec hg h
  exact ⟨h1, h2, h3, hg1.2.2.2.2.2.2.2.2⟩

theorem claim_C3_remove_postconditions_witness :
    VG.existsV (⟨[(0, ⟨[], [], 0⟩)], 0⟩ : VG) 1 = false ∧
    (∀ e ∈ (⟨[(0, ⟨[], [], 0⟩)], 0⟩ : VG).graph,
      1 ∉ (Prod.snd e).children ∧ 1 ∉ (Prod.snd e).parents) ∧
    (∀ c cn0 jn,
      gfind (⟨[(0, ⟨[1], [], 0⟩), (1, ⟨[], [0], 1⟩)], 0⟩ : VG).graph 1 = some jn →
      gfind (⟨[(0, ⟨[1], [], 0⟩), (1, ⟨[], [0], 1⟩)], 0⟩ : VG).graph c = some cn0 →
      c ∈ jn.children → cn0.parents = [1] →
      VG.existsV (⟨[(0, ⟨[], [], 0⟩)], 0⟩ : VG) c = false) ∧
    (∀ e ∈ (⟨[(0, ⟨[], [], 0⟩)], 0⟩ : VG).graph,
      Prod.fst e ≠ 0 → (Prod.snd e).parents ≠ []) :=
  @claim_C3_remove_postconditions 0 ⟨[(0, ⟨[1], [], 0⟩), (1, ⟨[], [0], 1⟩)], 0⟩
    ⟨[(0, ⟨[], [], 0⟩)], 0⟩
    ⟨rfl, by decide, by decide, by decide, by decide, by decide, by decide,
      ⟨⟨[1], [], 0⟩, rfl, rfl⟩, by decide⟩
    1 (by decide)
